import Mathlib

/-!
Verification of the local heuristic quiz synthesis pipeline of
`backend/quiz_generator.py` (functions `preprocess`, `wordnet_distractors`,
`fallback_distractors`, `make_distractors`, `select_answer_candidate`,
`make_mcq_from_sentence`, `make_tf_from_sentence`, `create_quiz_from_text`).

Modelling conventions:
* Python strings are Lean `String`s; all operations are defined through the
  underlying `List Char` so that they are executable and provable.
  `str.lower`, `str.strip`, `str.split`, substring containment (`in`) and the
  two regex uses (`re.escape(x)` with `re.IGNORECASE`, substituted once) are
  modelled character by character, faithful for ASCII input, which is all the
  source's regexes address (`[A-Za-z]`, `\b`, `\s`).
* The optional external linguistic backend (spaCy) and the lexical network
  (WordNet) are oracles bundled in a `Backend` record: the exact strings the
  external library would hand back.  Python's unordered `set` in
  `wordnet_distractors` is modelled as first-occurrence deduplication of the
  oracle's list; every real behaviour corresponds to some oracle.
* Randomness is explicit: each dynamic call of `random.random`,
  `random.shuffle`, `random.choice` reads its own oracle slot (per-sentence
  indexed streams for the assembler loop).  `random.shuffle` always permutes,
  so theorems that need this take a permutation hypothesis.
* `random.random()` values are modelled as rationals in `[0,1)`.
* Python `int` is `ℤ` where the source compares possibly-negative values
  (`num_questions`); slice bounds that the source only uses with nonnegative
  literals (3 and 5 distractors) are `ℕ`.
-/

namespace QuizGen

/-! ## Character-level primitives (Python `str` operations, ASCII-faithful) -/

/-- Word character for the regex `\b` boundary: `[A-Za-z0-9_]`. -/
def isWordChar (c : Char) : Bool := c.isAlphanum || c == '_'

/-- Character class of the keyword regex `[A-Za-z\-]`. -/
def isWordElem (c : Char) : Bool := c.isAlpha || c == '-'

/-- Python `str.lower` (ASCII). -/
def pyLower (s : String) : String := ⟨s.data.map Char.toLower⟩

/-- Lowercased character list of a string, used for case-insensitive search. -/
def lowerL (s : String) : List Char := s.data.map Char.toLower

/-- Strip whitespace from both ends of a character list (Python `str.strip`). -/
def stripL (l : List Char) : List Char :=
  ((l.dropWhile Char.isWhitespace).reverse.dropWhile Char.isWhitespace).reverse

/-- Python `str.strip()`. -/
def pyStrip (s : String) : String := ⟨stripL s.data⟩

/-- Python `len` on a string (number of characters). -/
def pyLen (s : String) : ℕ := s.data.length

/-- Worker for whitespace splitting: current reversed chunk in `acc`. -/
def splitWsGo : List Char → List Char → List String
  | [], acc => if acc.isEmpty then [] else [⟨acc.reverse⟩]
  | c :: rest, acc =>
    if c.isWhitespace then
      if acc.isEmpty then splitWsGo rest [] else ⟨acc.reverse⟩ :: splitWsGo rest []
    else splitWsGo rest (c :: acc)

/-- Python `str.split()` with no argument: split on whitespace runs, no empty parts. -/
def pySplitWs (s : String) : List String := splitWsGo s.data []

/-- Index of the first occurrence of `needle` in `hay` (`str.find` / regex search). -/
def findSub (needle : List Char) : List Char → Option ℕ
  | [] => if needle.isPrefixOf [] then some 0 else none
  | c :: t =>
    if needle.isPrefixOf (c :: t) then some 0
    else (findSub needle t).map (· + 1)

/-- Python `needle in hay` substring test. -/
def pyIn (needle hay : String) : Bool := (findSub needle.data hay.data).isSome

/-- `re.sub(re.escape(target), repl, s, count=1)` with `re.IGNORECASE`:
replace the first case-insensitive occurrence of `target` in `s`. -/
def replaceFirstCI (s target repl : String) : String :=
  match findSub (lowerL target) (lowerL s) with
  | none => s
  | some i => ⟨s.data.take i ++ repl.data ++ s.data.drop (i + target.data.length)⟩

/-- First-occurrence deduplication worker (`dict.fromkeys`, and the `x not in
combined` loops of the source). -/
def dedupGo (seen : List String) : List String → List String
  | [] => []
  | x :: xs => if x ∈ seen then dedupGo seen xs else x :: dedupGo (x :: seen) xs

/-- `list(dict.fromkeys(l))`: deduplicate keeping first occurrences. -/
def pyDedup (l : List String) : List String := dedupGo [] l

/-! ## Basic lemmas about the primitives -/

theorem mem_dedupGo {x : String} :
    ∀ (l seen : List String), x ∈ dedupGo seen l ↔ x ∈ l ∧ x ∉ seen := by
  intro l
  induction l with
  | nil => intro seen; simp [dedupGo]
  | cons a t ih =>
    intro seen
    by_cases h : a ∈ seen
    · simp only [dedupGo, if_pos h, ih, List.mem_cons]
      constructor
      · rintro ⟨hx, hs⟩; exact ⟨Or.inr hx, hs⟩
      · rintro ⟨hx | hx, hs⟩
        · cases hx; exact absurd h hs
        · exact ⟨hx, hs⟩
    · simp only [dedupGo, if_neg h, List.mem_cons, ih]
      constructor
      · rintro (rfl | ⟨hx, hs⟩)
        · exact ⟨Or.inl rfl, h⟩
        · refine ⟨Or.inr hx, fun hc => hs (Or.inr hc)⟩
      · rintro ⟨rfl | hx, hs⟩
        · exact Or.inl rfl
        · by_cases hxa : x = a
          · exact Or.inl hxa
          · exact Or.inr ⟨hx, by simp [hxa, hs]⟩

theorem mem_pyDedup {x : String} {l : List String} : x ∈ pyDedup l ↔ x ∈ l := by
  simp [pyDedup, mem_dedupGo]

theorem dedupGo_nodup : ∀ (l seen : List String), (dedupGo seen l).Nodup := by
  intro l
  induction l with
  | nil => intro seen; simp [dedupGo]
  | cons a t ih =>
    intro seen
    by_cases h : a ∈ seen
    · simpa [dedupGo, h] using ih seen
    · simp only [dedupGo, if_neg h, List.nodup_cons]
      refine ⟨fun hc => ?_, ih (a :: seen)⟩
      exact ((mem_dedupGo t (a :: seen)).1 hc).2 (List.mem_cons_self a seen)

theorem pyDedup_nodup (l : List String) : (pyDedup l).Nodup := dedupGo_nodup l []

theorem dedupGo_length_le : ∀ (l seen : List String), (dedupGo seen l).length ≤ l.length := by
  intro l
  induction l with
  | nil => intro seen; simp [dedupGo]
  | cons a t ih =>
    intro seen
    by_cases h : a ∈ seen
    · simp only [dedupGo, if_pos h]
      exact le_trans (ih seen) (Nat.le_succ _)
    · simp only [dedupGo, if_neg h, List.length_cons]
      exact Nat.succ_le_succ (ih (a :: seen))

theorem pyDedup_length_le (l : List String) : (pyDedup l).length ≤ l.length :=
  dedupGo_length_le l []

theorem findSub_self_not_none (l : List Char) : findSub l l ≠ none := by
  cases l with
  | nil => simp [findSub]
  | cons c t =>
    have h : List.isPrefixOf (c :: t) (c :: t) = true :=
      List.isPrefixOf_iff_prefix.2 (List.prefix_refl _)
    simp [findSub, h]

theorem pyIn_self (s : String) : pyIn s s = true := by
  simp only [pyIn, Option.isSome]
  cases h : findSub s.data s.data with
  | none => exact absurd h (findSub_self_not_none s.data)
  | some i => rfl

/-! ## ASCII facts about `Char.toLower` -/

theorem charOfNat_toNat {n : ℕ} (h : n.isValidChar) : (Char.ofNat n).toNat = n := by
  simp only [Char.ofNat, dif_pos h, Char.ofNatAux, Char.toNat]
  simp [UInt32.toNat]

theorem uint32_le_iff {a b : UInt32} : a ≤ b ↔ a.toNat ≤ b.toNat := by
  rw [UInt32.le_def, BitVec.le_def]; rfl

theorem isUpper_iff {c : Char} : c.isUpper = true ↔ 65 ≤ c.toNat ∧ c.toNat ≤ 90 := by
  simp only [Char.isUpper, Bool.and_eq_true, decide_eq_true_eq, GE.ge, uint32_le_iff]
  exact Iff.rfl

theorem isLower_iff {c : Char} : c.isLower = true ↔ 97 ≤ c.toNat ∧ c.toNat ≤ 122 := by
  simp only [Char.isLower, Bool.and_eq_true, decide_eq_true_eq, GE.ge, uint32_le_iff]
  exact Iff.rfl

theorem toLower_toNat (c : Char) :
    (Char.toLower c).toNat = if 65 ≤ c.toNat ∧ c.toNat ≤ 90 then c.toNat + 32 else c.toNat := by
  by_cases h : 65 ≤ c.toNat ∧ c.toNat ≤ 90
  · have hv : (c.toNat + 32).isValidChar := Or.inl (by omega)
    have hge : c.toNat ≥ 65 ∧ c.toNat ≤ 90 := h
    simp only [Char.toLower, if_pos hge, if_pos h]
    exact charOfNat_toNat hv
  · have h2 : ¬(c.toNat ≥ 65 ∧ c.toNat ≤ 90) := h
    simp only [Char.toLower, if_neg h2, if_neg h]

theorem toLower_eq_self_of_not_upper {c : Char} (h : c.isUpper = false) :
    Char.toLower c = c := by
  have h2 : ¬(65 ≤ c.toNat ∧ c.toNat ≤ 90) := by
    intro hc
    rw [isUpper_iff.2 hc] at h
    exact Bool.true_eq_false.mp h
  simp only [Char.toLower, GE.ge]
  rw [if_neg (fun hc => h2 ⟨hc.1, hc.2⟩)]

theorem isUpper_toLower (c : Char) : (Char.toLower c).isUpper = false := by
  by_cases h : 65 ≤ c.toNat ∧ c.toNat ≤ 90
  · have : (Char.toLower c).toNat = c.toNat + 32 := by rw [toLower_toNat, if_pos h]
    cases hu : (Char.toLower c).isUpper with
    | false => rfl
    | true =>
      have hb := isUpper_iff.1 hu
      omega
  · cases hu : c.isUpper with
    | false => rw [toLower_eq_self_of_not_upper hu]; exact hu
    | true => exact absurd (isUpper_iff.1 hu) h

theorem toLower_toLower (c : Char) : Char.toLower (Char.toLower c) = Char.toLower c :=
  toLower_eq_self_of_not_upper (isUpper_toLower c)

theorem isAlpha_toLower {c : Char} (h : c.isAlpha = true) :
    (Char.toLower c).isAlpha = true := by
  rcases Bool.or_eq_true_iff.1 (by simpa [Char.isAlpha] using h) with hu | hl
  · have hb := isUpper_iff.1 hu
    have : (Char.toLower c).toNat = c.toNat + 32 := by rw [toLower_toNat, if_pos hb]
    have hlow : (Char.toLower c).isLower = true := isLower_iff.2 (by omega)
    simp [Char.isAlpha, hlow]
  · have hb := isLower_iff.1 hl
    have hnu : c.isUpper = false := by
      cases hu : c.isUpper with
      | false => rfl
      | true => have := isUpper_iff.1 hu; omega
    rw [toLower_eq_self_of_not_upper hnu]
    exact h

theorem pyLower_pyLower (s : String) : pyLower (pyLower s) = pyLower s := by
  simp [pyLower, List.map_map, Function.comp_def, toLower_toLower]

theorem alpha_not_ws {c : Char} (h : c.isAlpha = true) : c.isWhitespace = false := by
  cases hw : c.isWhitespace with
  | false => rfl
  | true =>
    exfalso
    have hd : ((c = ' ' ∨ c = '\t') ∨ c = '\x0d') ∨ c = '\n' := by
      simpa [Char.isWhitespace, decide_eq_true_eq, Bool.or_eq_true] using hw
    rcases hd with ((rfl | rfl) | rfl) | rfl <;> exact absurd h (by decide)

/-! ## Facts about `stripL` and `pySplitWs` -/

theorem dropWhile_eq_self_of_head {p : Char → Bool} {l : List Char}
    (h : ∀ c, l.head? = some c → p c = false) : l.dropWhile p = l := by
  cases l with
  | nil => rfl
  | cons c t =>
    have hc : p c = false := h c rfl
    simp [List.dropWhile_cons, hc]

theorem head_dropWhile_false {p : Char → Bool} :
    ∀ (l : List Char) (c : Char), (l.dropWhile p).head? = some c → p c = false := by
  intro l
  induction l with
  | nil => intro c hc; simp [List.dropWhile] at hc
  | cons a t ih =>
    intro c hc
    by_cases hp : p a = true
    · rw [List.dropWhile_cons, if_pos hp] at hc
      exact ih c hc
    · rw [List.dropWhile_cons, if_neg hp] at hc
      cases hc
      exact Bool.eq_false_iff.2 hp

theorem stripL_idem (l : List Char) : stripL (stripL l) = stripL l := by
  set w := l.dropWhile Char.isWhitespace with hw
  set r := w.reverse.dropWhile Char.isWhitespace with hr
  have hstrip : stripL l = r.reverse := rfl
  rcases eq_or_ne r [] with hnil | hne
  · rw [hstrip, hnil]
    rfl
  · -- head of r.reverse is the last element of r, which sits at the head of w
    have hsuff : r <:+ w.reverse := by rw [hr]; exact List.dropWhile_suffix _
    have hwrev : w.reverse ≠ [] := by
      intro hcon
      rw [hr, hcon] at hne
      exact hne rfl
    have hlast : r.getLast hne = (w.reverse).getLast hwrev := by
      rw [hsuff.getLast hne]
    have hhead : (r.reverse).head? = some (r.getLast hne) := by
      rw [List.head?_reverse, List.getLast?_eq_getLast r hne]
    have hwlast : (w.reverse).getLast? = w.head? := List.getLast?_reverse w
    have hwne : w ≠ [] := by
      intro hcon
      apply hwrev
      rw [hcon]
      rfl
    have hhw : w.head? = some (w.head hwne) := List.head?_eq_head hwne
    have hwheadf : Char.isWhitespace (w.head hwne) = false := by
      apply head_dropWhile_false l
      rw [← hw, List.head?_eq_head hwne]
    have hlast2 : r.getLast hne = w.head hwne := by
      have h1 : (w.reverse).getLast? = some ((w.reverse).getLast hwrev) :=
        List.getLast?_eq_getLast _ hwrev
      rw [hwlast, hhw] at h1
      rw [hlast]
      exact (Option.some_injective _ h1).symm
    have hrheadf : ∀ c, (r.reverse).head? = some c → Char.isWhitespace c = false := by
      intro c hc
      rw [hhead] at hc
      cases hc
      rw [hlast2]
      exact hwheadf
    -- now unfold stripL of r.reverse
    have h1 : (r.reverse).dropWhile Char.isWhitespace = r.reverse :=
      dropWhile_eq_self_of_head hrheadf
    have hrhf : ∀ c, r.head? = some c → Char.isWhitespace c = false := by
      intro c hc
      exact head_dropWhile_false w.reverse c (by rw [← hr]; exact hc)
    have h2 : ((r.reverse).reverse).dropWhile Char.isWhitespace = r := by
      rw [List.reverse_reverse]
      exact dropWhile_eq_self_of_head hrhf
    rw [hstrip]
    show ((((r.reverse).dropWhile Char.isWhitespace).reverse).dropWhile
      Char.isWhitespace).reverse = r.reverse
    rw [h1, h2]

theorem pyStrip_pyStrip (s : String) : pyStrip (pyStrip s) = pyStrip s := by
  simp [pyStrip, stripL_idem]

theorem dropWhile_eq_self_of_all {p : Char → Bool} {l : List Char}
    (h : ∀ c ∈ l, p c = false) : l.dropWhile p = l := by
  apply dropWhile_eq_self_of_head
  intro c hc
  exact h c (List.mem_of_mem_head? hc)

theorem stripL_of_all_not_ws {l : List Char}
    (h : ∀ c ∈ l, Char.isWhitespace c = false) : stripL l = l := by
  unfold stripL
  rw [dropWhile_eq_self_of_all h]
  rw [dropWhile_eq_self_of_all (fun c hc => h c (List.mem_reverse.1 hc))]
  exact List.reverse_reverse l

theorem pyStrip_of_all_not_ws {s : String}
    (h : ∀ c ∈ s.data, Char.isWhitespace c = false) : pyStrip s = s := by
  rw [pyStrip, stripL_of_all_not_ws h]

theorem splitWsGo_of_all_not_ws :
    ∀ (l : List Char), l ≠ [] → (∀ c ∈ l, Char.isWhitespace c = false) →
      ∀ acc, splitWsGo l acc = [⟨acc.reverse ++ l⟩] := by
  intro l
  induction l with
  | nil => intro h; exact absurd rfl h
  | cons c t ih =>
    intro _ hall acc
    have hc : Char.isWhitespace c = false := hall c (List.mem_cons_self c t)
    rcases eq_or_ne t [] with rfl | hne
    · simp [splitWsGo, hc]
    · have := ih hne (fun d hd => hall d (List.mem_cons_of_mem c hd)) (c :: acc)
      rw [splitWsGo, if_neg (by simp [hc]), this]
      simp

theorem pySplitWs_single {s : String} (hne : s ≠ "")
    (h : ∀ c ∈ s.data, Char.isWhitespace c = false) : pySplitWs s = [s] := by
  have hdata : s.data ≠ [] := by
    intro hc
    apply hne
    cases s
    simp at hc
    simp [hc]
  rw [pySplitWs, splitWsGo_of_all_not_ws s.data hdata h []]
  simp

/-! ## The keyword regex `\b[A-Za-z][A-Za-z\-]+\b` (re.findall)

A match starts at a letter preceded by a non-word character, greedily takes
letters and hyphens, then backtracks the end of the match until the trailing
`\b` holds.  `\b` holds between two characters exactly when one of them is a
word character and the other is not (at the end of the string, when the last
character is a word character), so a match may also end after a hyphen that is
followed by a word character — confirmed against CPython `re`.  `tokenEnd`
computes the largest valid end position. -/

/-- Boundary after a match: end of input or a non-word character. -/
def boundaryOk : Option Char → Bool
  | none => true
  | some c => !isWordChar c

/-- The character right after a match of length `e` over `run`, where `nxt`
follows the whole run. -/
def charAfter (run : List Char) (nxt : Option Char) (e : ℕ) : Option Char :=
  if e = run.length then nxt else run.get? e

/-- Does the keyword match over `run` (a maximal letter/hyphen run) validly end
after `e` characters, given the character `nxt` that follows the run?  The
trailing `\b` is the XOR of word-character-ness on the two sides. -/
def validEnd (run : List Char) (nxt : Option Char) (e : ℕ) : Bool :=
  decide (2 ≤ e) && decide (e ≤ run.length) &&
    ((run.get? (e - 1)).any (fun a =>
      match charAfter run nxt e with
      | none => isWordChar a
      | some b => isWordChar a != isWordChar b))

/-- Largest valid end position of a keyword match over `run`, if any. -/
def tokenEnd (run : List Char) (nxt : Option Char) : Option ℕ :=
  (((List.range (run.length + 1)).filter (fun e => validEnd run nxt e)).getLast?)

/-- Scanner for `re.findall(r'\b[A-Za-z][A-Za-z\-]+\b', text)`.  `prevW` says
whether the previous character was a word character (for `\b`); the fuel is an
upper bound on the number of steps, each of which consumes at least one
character. -/
def findWordsGo : ℕ → Bool → List Char → List String
  | 0, _, _ => []
  | _ + 1, _, [] => []
  | fuel + 1, prevW, c :: rest =>
    if c.isAlpha && !prevW then
      let pre := rest.takeWhile isWordElem
      let post := rest.dropWhile isWordElem
      let run := c :: pre
      match tokenEnd run post.head? with
      | some e =>
        (⟨run.take e⟩ : String) ::
          findWordsGo fuel ((run.get? (e - 1)).any isWordChar) (run.drop e ++ post)
      | none => findWordsGo fuel true rest
    else findWordsGo fuel (isWordChar c) rest

/-- `re.findall(r'\b[A-Za-z][A-Za-z\-]+\b', text)`. -/
def findWords (s : String) : List String := findWordsGo (s.data.length + 1) false s.data

/-- The token list the heuristic branch of `preprocess` counts:
`[w.lower() for w in words if len(w) > 3]`. -/
def heurToks (s : String) : List String :=
  ((findWords s).filter (fun w => 3 < pyLen w)).map pyLower

/-! ## `Counter(...).most_common(50)`: stable descending sort by count -/

/-- Stable insertion into a count-descending list: `x` jumps only over entries
with strictly smaller count, matching Python's stable `sorted(..., reverse=True)`
used by `Counter.most_common` (ties keep first-occurrence order). -/
def insertRanked (toks : List String) (x : String) : List String → List String
  | [] => [x]
  | y :: ys => if toks.count y < toks.count x then x :: y :: ys else y :: insertRanked toks x ys

/-- Stable sort of `l` by descending number of occurrences in `toks`. -/
def rankSort (toks l : List String) : List String :=
  l.foldl (fun acc x => insertRanked toks x acc) []

/-- `[k for k, _ in Counter(toks).most_common(cap)]`. -/
def mostCommon (toks : List String) (cap : ℕ) : List String :=
  (rankSort toks (pyDedup toks)).take cap

/-! ## `simple_sent_split`: `re.split(r'(?<=[.!?])\s+', text.strip())` -/

/-- Sentence-final punctuation of the splitter regex. -/
def isSentPunct (c : Char) : Bool := c == '.' || c == '!' || c == '?'

/-- Is the head of the list a whitespace character? -/
def headWs : List Char → Bool
  | [] => false
  | c :: _ => c.isWhitespace

/-- Splitter state machine: `acc` is the current part reversed, `skip` is true
while consuming the whitespace run that follows a split point. -/
def sentSplitGo : List Char → List Char → Bool → List (List Char)
  | [], acc, _ => [acc.reverse]
  | c :: rest, acc, skip =>
    if skip && c.isWhitespace then sentSplitGo rest acc true
    else
      let acc2 := if skip then ([] : List Char) else acc
      if isSentPunct c && headWs rest then (acc2.reverse ++ [c]) :: sentSplitGo rest [] true
      else sentSplitGo rest (c :: acc2) false

/-- `simple_sent_split` of the source: split the stripped text after
sentence-final punctuation followed by whitespace, strip the parts, drop empty
parts. -/
def simple_sent_split (text : String) : List String :=
  ((sentSplitGo (stripL text.data) [] false).map (fun l => pyStrip ⟨l⟩)).filter
    (fun p => p ≠ "")

/-! ## The answer-candidate regexes of the heuristic mode -/

/-- Try to match `[A-Z][a-z]{3,}` at the head of the list; on success return
the matched word and the remaining characters. -/
def capsWordFrom : List Char → Option (List Char × List Char)
  | [] => none
  | c :: rest =>
    if c.isUpper then
      let lo := rest.takeWhile Char.isLower
      if 3 ≤ lo.length then some (c :: lo, rest.drop lo.length) else none
    else none

/-- Greedy extension `(?:\s+[A-Z][a-z]{3,})*`: repeatedly absorb a whitespace
run followed by another capitalized word.  The matched text keeps the
whitespace, exactly as `re.findall` returns it. -/
def capsExtendGo : ℕ → List Char → List Char → List Char
  | 0, acc, _ => acc
  | fuel + 1, acc, l =>
    let ws := l.takeWhile Char.isWhitespace
    if ws.isEmpty then acc
    else
      match capsWordFrom (l.dropWhile Char.isWhitespace) with
      | some (w, rest2) => capsExtendGo fuel (acc ++ ws ++ w) rest2
      | none => acc

/-- First match of `re.findall(r'\b[A-Z][a-z]{3,}(?:\s+[A-Z][a-z]{3,})*', s)`:
the `caps[0]` / `ents[0]` of the source. -/
def firstCapsGo : Bool → List Char → Option String
  | _, [] => none
  | prevW, c :: rest =>
    if !prevW && c.isUpper then
      match capsWordFrom (c :: rest) with
      | some (w, rest2) => some ⟨capsExtendGo (rest2.length + 1) w rest2⟩
      | none => firstCapsGo true rest
    else firstCapsGo (isWordChar c) rest

/-- First capitalized multiword run of a sentence (heuristic mode). -/
def firstCapsRun (s : String) : Option String := firstCapsGo false s.data

/-- First match of `re.findall(r'\b[A-Za-z]{4,}\b', s)`: the `words[0]` of the
source's heuristic answer selection. -/
def firstLongGo : Bool → List Char → Option String
  | _, [] => none
  | prevW, c :: rest =>
    if !prevW && c.isAlpha then
      let run := c :: rest.takeWhile Char.isAlpha
      let post := rest.dropWhile Char.isAlpha
      if 4 ≤ run.length && boundaryOk post.head? then some ⟨run⟩
      else firstLongGo true rest
    else firstLongGo (isWordChar c) rest

/-- First alphabetic word of length at least 4 with `\b` boundaries. -/
def firstLongWord (s : String) : Option String := firstLongGo false s.data

/-! ## Data model: external oracles, preprocessed state, quiz items -/

/-- Outputs of the optional spaCy backend (`nlp`), per input string: the texts
of `doc.sents`, `doc.noun_chunks`, the lowercased lemmas of alphabetic
non-stopword NOUN/PROPN tokens in document order, the texts of `doc.ents`, and
the texts of NOUN/PROPN tokens.  These are the raw strings the external
library hands back; the source's own processing of them is modelled below. -/
structure NlpOracle where
  sents : String → List String
  docChunks : String → List String
  lemmaToks : String → List String
  ents : String → List String
  nounToks : String → List String

/-- The process-wide optional linguistic resources: `nlp` (spaCy model, or
`None`) and `wn` (WordNet; `wn w` lists the lemma names, with underscores
already replaced by spaces, produced while iterating the noun synsets of `w`
and their hypernyms — the elements the source adds to its `distractors` set). -/
structure Backend where
  nlp : Option NlpOracle
  wn : Option (String → List String)

/-- The state dict returned by `preprocess` (the unused `doc` entry is
omitted; no downstream code reads it). -/
structure PState where
  sentences : List String
  noun_chunks : List String
  keywords : List String
deriving Repr, DecidableEq

/-- The all-empty state returned for empty or non-string input. -/
def emptyState : PState := ⟨[], [], []⟩

/-- `preprocess(text)`.  `none` stands for Python `None` (non-string input).
Both operating modes of the source are modelled; the heuristic branch is fully
computational, the full-parse branch processes the oracle's strings exactly as
the source processes spaCy's. -/
def preprocess (B : Backend) (text : Option String) : PState :=
  match text with
  | none => emptyState
  | some s =>
    if s = "" then emptyState
    else
      match B.nlp with
      | some o =>
        { sentences := ((o.sents s).filter (fun t => 4 < (pySplitWs t).length)).map pyStrip
          noun_chunks := o.docChunks s
          keywords := mostCommon (o.lemmaToks s) 50 }
      | none =>
        { sentences := (simple_sent_split s).filter (fun t => 4 < (pySplitWs t).length)
          noun_chunks := []
          keywords := mostCommon (heurToks s) 50 }

/-- `wordnet_distractors(word, 'n', max_distractors)`: collect the oracle's
lemma names, drop those case-insensitively equal to `word`, deduplicate (the
Python `set`), truncate.  Returns `[]` when WordNet is unavailable. -/
def wordnet_distractors (B : Backend) (word : String) (max_distractors : ℕ) : List String :=
  match B.wn with
  | none => []
  | some f => (pyDedup ((f word).filter (fun nm => pyLower nm ≠ pyLower word))).take max_distractors

/-- The noun-chunk loop of `fallback_distractors`: append chunks not
case-insensitively contained in the answer and not already chosen, until `n`
entries are reached. -/
def chunksLoop (answer : String) (n : ℕ) : List String → List String → List String
  | choices, [] => choices
  | choices, c :: cs =>
    if n ≤ choices.length then choices
    else if !(pyIn (pyLower c) (pyLower answer)) && !(choices.contains c) then
      chunksLoop answer n (choices ++ [c]) cs
    else chunksLoop answer n choices cs

/-- `fallback_distractors(answer, keywords, noun_chunks, n)`. -/
def fallback_distractors (answer : String) (keywords noun_chunks : List String)
    (n : ℕ) : List String :=
  let cand := keywords.filter (fun k => !(pyIn (pyLower k) (pyLower answer)))
  let choices := cand.take n
  (chunksLoop answer n choices noun_chunks).take n

/-- The final-safeguard loop of `make_distractors`: append extras until `n`. -/
def extrasLoop (n : ℕ) : List String → List String → List String
  | combined, [] => combined
  | combined, e :: es =>
    if n ≤ combined.length then combined
    else extrasLoop n (combined ++ [e]) es

/-- `answer.strip().split()[0] if answer.strip() else ''`. -/
def ansToken (answer : String) : String := (pySplitWs (pyStrip answer)).headD ""

/-- `make_distractors(answer, state, n)`. -/
def make_distractors (B : Backend) (answer : String) (st : PState) (n : ℕ) : List String :=
  let token := ansToken answer
  let wn_candidates := wordnet_distractors B (pyLower token) n
  if n ≤ wn_candidates.length then wn_candidates.take n
  else
    let fb := fallback_distractors answer st.keywords st.noun_chunks n
    let combined := pyDedup (wn_candidates ++ fb)
    let combined2 :=
      if combined.length < n then
        extrasLoop n combined (st.keywords.filter
          (fun k => !(combined.contains k) && !(pyIn (pyLower k) (pyLower answer))))
      else combined
    combined2.take n

/-- Stable insertion for `sorted(chunks, key=len, reverse=True)`. -/
def insertLen (x : String) : List String → List String
  | [] => [x]
  | y :: ys => if pyLen y < pyLen x then x :: y :: ys else y :: insertLen x ys

/-- Stable descending sort by string length. -/
def sortByLenDesc (l : List String) : List String :=
  l.foldl (fun acc x => insertLen x acc) []

/-- `select_answer_candidate(sentence)`: full-parse mode prefers the first
entity, then the longest (stripped) noun chunk, then the first NOUN/PROPN
token; heuristic mode prefers the first capitalized run, then the first long
word.  A `some ""` result is possible (the source returns the falsy `""`,
which the callers reject with `if not ans`). -/
def select_answer_candidate (B : Backend) (sentence : String) : Option String :=
  match B.nlp with
  | some o =>
    match o.ents sentence with
    | e :: _ => some (pyStrip e)
    | [] =>
      match sortByLenDesc ((o.docChunks sentence).map pyStrip) with
      | ch :: _ => some ch
      | [] =>
        match o.nounToks sentence with
        | t :: _ => some t
        | [] => none
  | none =>
    match firstCapsRun sentence with
    | some cap => some (pyStrip cap)
    | none => firstLongWord sentence

/-- A quiz item dict.  True/false items carry no `options` key in the source;
they are modelled with `options := []`. -/
structure QItem where
  type : String
  question : String
  options : List String
  answer : String
  correct_answer : String
  topic : String
deriving Repr, DecidableEq

/-- `(state.get('keywords') or [None])[0] or ''`. -/
def topicOf (st : PState) : String := st.keywords.headD ""

/-- The `options` local of `make_mcq_from_sentence` before shuffling:
`list(dict.fromkeys([opt.strip() for opt in [ans] + distractors if opt and
isinstance(opt, str)]))` — filter out falsy (empty) entries first, then strip,
then deduplicate. -/
def mcqOptions (B : Backend) (ans : String) (st : PState) (nd : ℕ) : List String :=
  pyDedup ((([ans] ++ make_distractors B ans st nd).filter (fun o => o ≠ "")).map pyStrip)

/-- `make_mcq_from_sentence(sentence, state, n_distractors)`.  `sh` is the
permutation applied by this call's `random.shuffle(options)`. -/
def make_mcq_from_sentence (B : Backend) (sh : List String → List String)
    (sentence : String) (st : PState) (n_distractors : ℕ) : Option QItem :=
  match select_answer_candidate B sentence with
  | none => none
  | some a0 =>
    if a0 = "" then none
    else
      let ans := pyStrip a0
      let first_two := ((pySplitWs sentence).take 2).map pyLower
      if first_two.contains (pyLower ans) then none
      else
        let q_text := replaceFirstCI sentence ans "______"
        let options := mcqOptions B ans st n_distractors
        if options.length < 2 then none
        else
          some { type := "mcq", question := q_text, options := sh options,
                 answer := ans, correct_answer := ans, topic := topicOf st }

/-- The branch condition `random.random() > false_prob` of the TF builder:
`r` is this call's draw. -/
def tfGoesTrue (false_prob r : ℚ) : Bool := false_prob < r

/-- The swap target of `make_tf_from_sentence`: first entity else first noun
chunk (full-parse), else the first capitalized run (heuristic).  Unlike the
MCQ selector, nothing is stripped or sorted here. -/
def tfSwapTarget (B : Backend) (sentence : String) : Option String :=
  match B.nlp with
  | some o =>
    match o.ents sentence with
    | e :: _ => some e
    | [] =>
      match o.docChunks sentence with
      | c :: _ => some c
      | [] => none
  | none => firstCapsRun sentence

/-- The truthful item `{"type": "tf", ..., "answer": "True"}`. -/
def trueItemOf (sentence : String) (st : PState) : QItem :=
  { type := "tf", question := sentence, options := [], answer := "True",
    correct_answer := "True", topic := topicOf st }

/-- `make_tf_from_sentence(sentence, state, false_prob)`.  `r` is this call's
`random.random()` draw; `pick` selects this call's `random.choice` (reduced
modulo the number of distractors). -/
def make_tf_from_sentence (B : Backend) (r : ℚ) (pick : ℕ) (sentence : String)
    (st : PState) (false_prob : ℚ) : QItem :=
  if tfGoesTrue false_prob r then trueItemOf sentence st
  else
    match tfSwapTarget B sentence with
    | none => trueItemOf sentence st
    | some tgt =>
      if tgt = "" then trueItemOf sentence st
      else
        let distractors := make_distractors B tgt st 5
        if distractors.isEmpty then trueItemOf sentence st
        else
          let replacement := distractors.getD (pick % distractors.length) ""
          { type := "tf", question := replaceFirstCI sentence tgt replacement,
            options := [], answer := "False", correct_answer := "False",
            topic := topicOf st }

/-- The source's literal `0.5`, as a normal-form rational (so that concrete
executions reduce inside the kernel). -/
def half : ℚ := Rat.mk' 1 2 (by decide) (by decide)

theorem half_eq : half = (1 : ℚ)/2 := by
  rw [half, Rat.mk'_eq_divInt, Rat.divInt_eq_div]
  norm_num

/-- The candidate-collection loop of `create_quiz_from_text`: for the sentence
at position `i`, attempt the MCQ builder (with its default of 3 distractors,
shuffling by `shOpts i`), then with probability 1/2 (`coin i < 0.5`) also run
the TF builder with draws `tfr i` and `pick i`. -/
def gatherCandidates (B : Backend) (shOpts : ℕ → List String → List String)
    (coin tfr : ℕ → ℚ) (pick : ℕ → ℕ) (st : PState) : ℕ → List String → List QItem
  | _, [] => []
  | i, s :: rest =>
    let mcqs := match make_mcq_from_sentence B (shOpts i) s st 3 with
      | some q => [q]
      | none => []
    let tfs := if coin i < half then [make_tf_from_sentence B (tfr i) (pick i) s st half]
      else []
    mcqs ++ tfs ++ gatherCandidates B shOpts coin tfr pick st (i + 1) rest

/-- The final selection loop of `create_quiz_from_text`: stop once the
accumulated list reaches `num_questions`; skip items whose normalized
(stripped, lowercased) question text is empty or already seen.  The source's
`if "correct_answer" not in q ...` patch-up never fires: both builders always
set `correct_answer`. -/
def assembleLoop (nq : ℤ) : List QItem → List QItem → List String → List QItem
  | [], acc, _ => acc
  | q :: rest, acc, seen =>
    if nq ≤ (acc.length : ℤ) then acc
    else
      let qt := pyLower (pyStrip q.question)
      if qt ≠ "" ∧ qt ∉ seen then assembleLoop nq rest (acc ++ [q]) (qt :: seen)
      else assembleLoop nq rest acc seen

/-- `create_quiz_from_text(text, num_questions)`.  `shItems` is the
`random.shuffle(candidates)` permutation; per-sentence random draws are the
indexed streams described at `gatherCandidates`. -/
def create_quiz_from_text (B : Backend) (shOpts : ℕ → List String → List String)
    (shItems : List QItem → List QItem) (coin tfr : ℕ → ℚ) (pick : ℕ → ℕ)
    (text : Option String) (num_questions : ℤ) : List QItem :=
  let st := preprocess B text
  let cands := gatherCandidates B shOpts coin tfr pick st 0 st.sentences
  assembleLoop num_questions (shItems cands) [] []

/-! ## Concrete environments used by witnesses and counterexamples -/

/-- Heuristic-mode backend: spaCy and WordNet both unavailable. -/
def B0 : Backend := ⟨none, none⟩

/-- Identity option-shuffle stream (a legal value of `random.shuffle`). -/
def idShuffleS : ℕ → List String → List String := fun _ l => l

/-- Identity candidate-shuffle (a legal value of `random.shuffle`). -/
def idShuffleI : List QItem → List QItem := fun l => l

/-- Stream of draws equal to 0. -/
def coinZero : ℕ → ℚ := fun _ => 0

/-- Stream of draws equal to 1 (skips the 50% TF branch). -/
def coinOne : ℕ → ℚ := fun _ => 1

/-- Stream of choice indices equal to 0. -/
def pickZero : ℕ → ℕ := fun _ => 0

/-! ## Lemmas about the assembler loop -/

theorem assembleLoop_length (nq : ℤ) :
    ∀ (pool acc : List QItem) (seen : List String),
      (assembleLoop nq pool acc seen).length ≤ max acc.length nq.toNat := by
  intro pool
  induction pool with
  | nil =>
    intro acc seen
    simp only [assembleLoop]
    exact le_max_left _ _
  | cons q rest ih =>
    intro acc seen
    by_cases h : nq ≤ (acc.length : ℤ)
    · simp only [assembleLoop, if_pos h]
      exact le_max_left _ _
    · simp only [assembleLoop, if_neg h]
      have hlt : acc.length < nq.toNat := by omega
      by_cases h2 : pyLower (pyStrip q.question) ≠ "" ∧ pyLower (pyStrip q.question) ∉ seen
      · simp only [if_pos h2]
        have := ih (acc ++ [q]) (pyLower (pyStrip q.question) :: seen)
        have hlen : (acc ++ [q]).length = acc.length + 1 := by simp
        rw [hlen] at this
        have hm : max (acc.length + 1) nq.toNat = nq.toNat := by omega
        rw [hm] at this
        exact le_trans this (le_max_right _ _)
      · simp only [if_neg h2]
        exact ih acc seen

theorem assembleLoop_mem (nq : ℤ) :
    ∀ (pool acc : List QItem) (seen : List String) (x : QItem),
      x ∈ assembleLoop nq pool acc seen → x ∈ acc ∨ x ∈ pool := by
  intro pool
  induction pool with
  | nil =>
    intro acc seen x hx
    simp only [assembleLoop] at hx
    exact Or.inl hx
  | cons q rest ih =>
    intro acc seen x hx
    by_cases h : nq ≤ (acc.length : ℤ)
    · simp only [assembleLoop, if_pos h] at hx
      exact Or.inl hx
    · simp only [assembleLoop, if_neg h] at hx
      by_cases h2 : pyLower (pyStrip q.question) ≠ "" ∧ pyLower (pyStrip q.question) ∉ seen
      · rw [if_pos h2] at hx
        rcases ih _ _ x hx with hacc | hrest
        · rcases List.mem_append.1 hacc with h3 | h3
          · exact Or.inl h3
          · rcases List.mem_singleton.1 h3 with rfl
            exact Or.inr (List.mem_cons_self _ _)
        · exact Or.inr (List.mem_cons_of_mem _ hrest)
      · rw [if_neg h2] at hx
        rcases ih _ _ x hx with hacc | hrest
        · exact Or.inl hacc
        · exact Or.inr (List.mem_cons_of_mem _ hrest)

/-- The distinct-question relation of the spec: normalized (stripped,
lowercased) question texts differ. -/
def distinctQ (a b : QItem) : Prop :=
  pyLower (pyStrip a.question) ≠ pyLower (pyStrip b.question)

theorem assembleLoop_pairwise (nq : ℤ) :
    ∀ (pool acc : List QItem) (seen : List String),
      (∀ q ∈ acc, pyLower (pyStrip q.question) ∈ seen) →
      acc.Pairwise distinctQ →
      (assembleLoop nq pool acc seen).Pairwise distinctQ := by
  intro pool
  induction pool with
  | nil =>
    intro acc seen _ hpw
    simpa only [assembleLoop] using hpw
  | cons q rest ih =>
    intro acc seen hseen hpw
    by_cases h : nq ≤ (acc.length : ℤ)
    · simpa only [assembleLoop, if_pos h] using hpw
    · simp only [assembleLoop, if_neg h]
      by_cases h2 : pyLower (pyStrip q.question) ≠ "" ∧ pyLower (pyStrip q.question) ∉ seen
      · rw [if_pos h2]
        apply ih
        · intro p hp
          rcases List.mem_append.1 hp with h3 | h3
          · exact List.mem_cons_of_mem _ (hseen p h3)
          · rcases List.mem_singleton.1 h3 with rfl
            exact List.mem_cons_self _ _
        · rw [List.pairwise_append]
          refine ⟨hpw, List.pairwise_singleton _ _, ?_⟩
          intro a ha b hb
          rcases List.mem_singleton.1 hb with rfl
          intro hcon
          exact h2.2 (hcon ▸ hseen a ha)
      · rw [if_neg h2]
        exact ih acc seen hseen hpw

/-! ## Claim C1: count bound of the assembler -/

/-- Claim C1, counterexample to the statement as written ("for every integer
requestedCount n ... `len(createQuiz(text, n)) <= n`"): for `n = -1` the
selection loop breaks immediately (`len(final_quiz) >= num_questions` holds at
once), so the empty list is returned, and `0 ≤ -1` is false. -/
theorem claim_C1_counterexample :
    ¬ (((create_quiz_from_text B0 idShuffleS idShuffleI coinZero coinZero pickZero
        (some "") (-1)).length : ℤ) ≤ -1) := by decide

/-- Claim C1 (amended): for every nonnegative requestedCount `n`, the list
returned by `create_quiz_from_text` has length at most `n`; the assembler
stops appending once the final list reaches `n` items.  (For negative `n` the
returned list is empty, so in general the bound is `max n 0`.) -/
theorem claim_C1 (B : Backend) (shOpts : ℕ → List String → List String)
    (shItems : List QItem → List QItem) (coin tfr : ℕ → ℚ) (pick : ℕ → ℕ)
    (text : Option String) (nq : ℤ) (h : 0 ≤ nq) :
    ((create_quiz_from_text B shOpts shItems coin tfr pick text nq).length : ℤ) ≤ nq := by
  simp only [create_quiz_from_text]
  have hb := assembleLoop_length nq
    (shItems (gatherCandidates B shOpts coin tfr pick (preprocess B text) 0
      (preprocess B text).sentences)) [] []
  simp only [List.length_nil] at hb
  omega

/-- Witness for C1 at a concrete input. -/
theorem claim_C1_witness :
    ((create_quiz_from_text B0 idShuffleS idShuffleI coinZero coinZero pickZero
        (some "") 10).length : ℤ) ≤ 10 :=
  claim_C1 B0 idShuffleS idShuffleI coinZero coinZero pickZero (some "") 10 (by decide)

/-! ## Claim C3: no duplicate questions -/

/-- Claim C3 (confirmed): for every input and requested count (and every
behaviour of the random shuffles and draws), the normalized (stripped,
lowercased) question texts of the returned items are pairwise distinct: the
selection loop keeps a seen-set of normalized question texts and skips
candidates whose normalized text was already seen. -/
theorem claim_C3 (B : Backend) (shOpts : ℕ → List String → List String)
    (shItems : List QItem → List QItem) (coin tfr : ℕ → ℚ) (pick : ℕ → ℕ)
    (text : Option String) (nq : ℤ) :
    (create_quiz_from_text B shOpts shItems coin tfr pick text nq).Pairwise distinctQ := by
  simp only [create_quiz_from_text]
  apply assembleLoop_pairwise
  · intro q hq
    exact absurd hq (List.not_mem_nil q)
  · exact List.Pairwise.nil

/-! ## Claim C9: empty and `None` input -/

/-- Claim C9 (confirmed): `preprocess` maps `None` and `""` to the state with
all fields empty, and `create_quiz_from_text` returns `[]` on both (the model
is total, so no exception can be raised).  The hypothesis states that the
candidate shuffle permutes its input, which `random.shuffle` always does. -/
theorem claim_C9 (B : Backend) (shOpts : ℕ → List String → List String)
    (shItems : List QItem → List QItem) (coin tfr : ℕ → ℚ) (pick : ℕ → ℕ)
    (hsh : ∀ l, (shItems l).Perm l) :
    preprocess B none = emptyState ∧ preprocess B (some "") = emptyState ∧
    create_quiz_from_text B shOpts shItems coin tfr pick none 10 = [] ∧
    create_quiz_from_text B shOpts shItems coin tfr pick (some "") 10 = [] := by
  have h1 : preprocess B none = emptyState := rfl
  have h2 : preprocess B (some "") = emptyState := by simp [preprocess]
  have hnil : shItems [] = [] := (hsh []).eq_nil
  refine ⟨h1, h2, ?_, ?_⟩
  · simp only [create_quiz_from_text, h1]
    show assembleLoop 10 (shItems []) [] [] = []
    rw [hnil]
    rfl
  · simp only [create_quiz_from_text, h2]
    show assembleLoop 10 (shItems []) [] [] = []
    rw [hnil]
    rfl

/-- Witness for C9 at a concrete environment. -/
theorem claim_C9_witness :
    preprocess B0 none = emptyState ∧ preprocess B0 (some "") = emptyState ∧
    create_quiz_from_text B0 idShuffleS idShuffleI coinZero coinZero pickZero none 10 = [] ∧
    create_quiz_from_text B0 idShuffleS idShuffleI coinZero coinZero pickZero (some "") 10 = [] :=
  claim_C9 B0 idShuffleS idShuffleI coinZero coinZero pickZero (fun l => List.Perm.refl l)

/-! ## Claim C5: the probability of the truthful branch -/

/-- Claim C5, counterexample to the statement as written: for
`falseProbability = 1/4` the set of draws in `[0,1)` taking the truthful
branch is not an interval of measure `1/4` — the code takes the truthful
branch when `r > false_prob`, an interval of measure `3/4`. -/
theorem claim_C5_counterexample :
    ¬ ∃ a b : ℚ, b - a = 1/4 ∧
      ∀ r : ℚ, 0 ≤ r → r < 1 → (tfGoesTrue (1/4) r = true ↔ a < r ∧ r < b) := by
  rintro ⟨a, b, hab, h⟩
  have h1 := (h (3/10) (by norm_num) (by norm_num)).1 (by
    simp only [tfGoesTrue, decide_eq_true_eq]
    norm_num)
  have h2 := (h (9/10) (by norm_num) (by norm_num)).1 (by
    simp only [tfGoesTrue, decide_eq_true_eq]
    norm_num)
  have hb1 : a < 3/10 := h1.1
  have hb2 : (9 : ℚ)/10 < b := h2.2
  linarith

/-- Claim C5 (amended): for every draw `r` in `[0,1)` the truthful branch of
`make_tf_from_sentence` is taken exactly when `r` lies in the interval
`(falseProbability, 1)` — of measure `1 - falseProbability`, not
`falseProbability` — and whenever it is taken the builder emits the truthful
item (`questionText = sentence`, `correctAnswer = "True"`). -/
theorem claim_C5 (p r : ℚ) (h0 : 0 ≤ r) (h1 : r < 1) :
    (tfGoesTrue p r = true ↔ (p < r ∧ r < 1)) ∧
    (∀ (B : Backend) (pick : ℕ) (s : String) (st : PState),
      tfGoesTrue p r = true →
        make_tf_from_sentence B r pick s st p = trueItemOf s st) := by
  constructor
  · simp only [tfGoesTrue, decide_eq_true_eq]
    exact ⟨fun h => ⟨h, h1⟩, fun h => h.1⟩
  · intro B pick s st hT
    simp [make_tf_from_sentence, hT]

/-- Witness for C5 at a concrete draw. -/
theorem claim_C5_witness :
    (tfGoesTrue (1/2) (3/4) = true ↔ ((1 : ℚ)/2 < 3/4 ∧ (3 : ℚ)/4 < 1)) ∧
    make_tf_from_sentence B0 (3/4) 0 "alpha beta" emptyState (1/2) =
      trueItemOf "alpha beta" emptyState := by
  have h := claim_C5 (1/2) (3/4) (by norm_num) (by norm_num)
  refine ⟨h.1, h.2 B0 0 "alpha beta" emptyState ?_⟩
  simp only [tfGoesTrue, decide_eq_true_eq]
  norm_num

/-! ## Claim C6: totality and degradation of the TF builder -/

theorem make_tf_type (B : Backend) (r : ℚ) (pick : ℕ) (s : String) (st : PState) (p : ℚ) :
    (make_tf_from_sentence B r pick s st p).type = "tf" := by
  unfold make_tf_from_sentence
  split
  · rfl
  · split
    · rfl
    · split
      · rfl
      · dsimp only
        split
        · rfl
        · rfl

theorem make_tf_none_eq {B : Backend} {s : String} (r : ℚ) (pick : ℕ) (st : PState) (p : ℚ)
    (h : tfSwapTarget B s = none) :
    make_tf_from_sentence B r pick s st p = trueItemOf s st := by
  unfold make_tf_from_sentence
  split
  · rfl
  · rw [h]

theorem make_tf_degraded_eq {B : Backend} {s : String} {tgt : String} (r : ℚ) (pick : ℕ)
    (st : PState) (p : ℚ) (h : tfSwapTarget B s = some tgt)
    (hd : tgt = "" ∨ make_distractors B tgt st 5 = []) :
    make_tf_from_sentence B r pick s st p = trueItemOf s st := by
  unfold make_tf_from_sentence
  split
  · rfl
  · rw [h]
    dsimp only
    rcases hd with rfl | hd
    · rw [if_pos rfl]
    · by_cases he : tgt = ""
      · rw [if_pos he]
      · rw [if_neg he]
        simp only [hd, List.isEmpty_nil, if_true]

/-- Claim C6 (confirmed): `make_tf_from_sentence` always returns a quiz item
(it is total, and the item is tagged `"tf"`); when no swap target is found
(including the falsy `""`), or the distractor synthesizer returns no
distractors for the swap target, the result is the truthful item with
`questionText` the unmodified sentence and `correctAnswer = "True"`. -/
theorem claim_C6 (B : Backend) (r : ℚ) (pick : ℕ) (s : String) (st : PState) (p : ℚ) :
    (make_tf_from_sentence B r pick s st p).type = "tf" ∧
    (tfSwapTarget B s = none →
      (make_tf_from_sentence B r pick s st p).question = s ∧
      (make_tf_from_sentence B r pick s st p).correct_answer = "True") ∧
    (∀ tgt, tfSwapTarget B s = some tgt →
      (tgt = "" ∨ make_distractors B tgt st 5 = []) →
      (make_tf_from_sentence B r pick s st p).question = s ∧
      (make_tf_from_sentence B r pick s st p).correct_answer = "True") := by
  refine ⟨make_tf_type B r pick s st p, ?_, ?_⟩
  · intro h
    rw [make_tf_none_eq r pick st p h]
    exact ⟨rfl, rfl⟩
  · intro tgt h hd
    rw [make_tf_degraded_eq r pick st p h hd]
    exact ⟨rfl, rfl⟩

/-- Witness for C6: a sentence with no capitalized run in heuristic mode. -/
theorem claim_C6_witness :
    (make_tf_from_sentence B0 0 0 "all lowercase words here now" emptyState (1/2)).type = "tf" ∧
    (make_tf_from_sentence B0 0 0 "all lowercase words here now" emptyState (1/2)).question =
      "all lowercase words here now" ∧
    (make_tf_from_sentence B0 0 0 "all lowercase words here now" emptyState (1/2)).correct_answer =
      "True" := by
  have h := claim_C6 B0 0 0 "all lowercase words here now" emptyState (1/2)
  have h2 := h.2.1 (by decide)
  exact ⟨h.1, h2.1, h2.2⟩

/-! ## Claim C4: shape of TrueFalse items -/

theorem getD_mem_of_lt {l : List String} {n : ℕ} (h : n < l.length) : l.getD n "" ∈ l := by
  rw [List.getD_eq_getElem?_getD, List.getElem?_eq_getElem h]
  exact List.getElem_mem h

/-- Splicing `repl` into `l` at `i` (over `tLen` characters) reproduces `l`
only when `repl` equals the replaced segment. -/
theorem splice_eq_self {l repl : List Char} {i tLen : ℕ}
    (h : l.take i ++ repl ++ l.drop (i + tLen) = l) :
    repl = (l.drop i).take tLen := by
  have hdec : l.take i ++ ((l.drop i).take tLen ++ l.drop (i + tLen)) = l := by
    have hd : l.drop (i + tLen) = (l.drop i).drop tLen := (List.drop_drop tLen i l).symm
    rw [hd, List.take_append_drop, List.take_append_drop]
  have h2 : l.take i ++ (repl ++ l.drop (i + tLen)) =
      l.take i ++ ((l.drop i).take tLen ++ l.drop (i + tLen)) := by
    rw [← List.append_assoc, h, hdec]
  exact List.append_cancel_right (List.append_cancel_left h2)

theorem make_tf_false_eq {B : Backend} {s tgt : String} (r : ℚ) (pick : ℕ) (st : PState)
    (p : ℚ) (hT : tfGoesTrue p r = false) (h : tfSwapTarget B s = some tgt) (he : tgt ≠ "")
    (hd : (make_distractors B tgt st 5).isEmpty = false) :
    make_tf_from_sentence B r pick s st p =
      { type := "tf",
        question := replaceFirstCI s tgt
          ((make_distractors B tgt st 5).getD (pick % (make_distractors B tgt st 5).length) ""),
        options := [], answer := "False", correct_answer := "False", topic := topicOf st } := by
  unfold make_tf_from_sentence
  rw [hT]
  simp only [Bool.false_eq_true, if_false, h]
  rw [if_neg he]
  simp only [hd, Bool.false_eq_true, if_false]

/-- Claim C4 (amended): every TrueFalse item's `correctAnswer` is exactly
`"True"` or `"False"`; when it is `"False"`, `questionText` is the sentence
with the first case-insensitive occurrence of the swap target replaced by a
chosen distractor, and it differs from the original sentence whenever the
chosen distractor differs from the replaced occurrence.  (The lexical network
only excludes candidates case-insensitively equal to the first token of the
swap target, so a multi-word swap target can be replaced by itself, leaving
the sentence unchanged — see the counterexample.) -/
theorem claim_C4 (B : Backend) (r : ℚ) (pick : ℕ) (s : String) (st : PState) (p : ℚ) :
    ((make_tf_from_sentence B r pick s st p).correct_answer = "True" ∨
     (make_tf_from_sentence B r pick s st p).correct_answer = "False") ∧
    ((make_tf_from_sentence B r pick s st p).correct_answer = "False" →
      ∃ tgt repl, tfSwapTarget B s = some tgt ∧ tgt ≠ "" ∧
        repl ∈ make_distractors B tgt st 5 ∧
        (make_tf_from_sentence B r pick s st p).question = replaceFirstCI s tgt repl ∧
        (∀ i, findSub (lowerL tgt) (lowerL s) = some i →
          repl.data ≠ (s.data.drop i).take tgt.data.length →
          (make_tf_from_sentence B r pick s st p).question ≠ s)) := by
  have hTF : (("True" : String) = "False") → False := by decide
  by_cases hT : tfGoesTrue p r = true
  · have heq : make_tf_from_sentence B r pick s st p = trueItemOf s st := by
      unfold make_tf_from_sentence
      rw [if_pos hT]
    rw [heq]
    exact ⟨Or.inl rfl, fun hcon => absurd (show ("True" : String) = "False" from hcon) hTF⟩
  · have hT2 : tfGoesTrue p r = false := Bool.eq_false_iff.2 hT
    cases htgt : tfSwapTarget B s with
    | none =>
      rw [make_tf_none_eq r pick st p htgt]
      exact ⟨Or.inl rfl, fun hcon => absurd (show ("True" : String) = "False" from hcon) hTF⟩
    | some tgt =>
      by_cases he : tgt = ""
      · rw [make_tf_degraded_eq r pick st p htgt (Or.inl he)]
        exact ⟨Or.inl rfl, fun hcon => absurd (show ("True" : String) = "False" from hcon) hTF⟩
      · cases hd : (make_distractors B tgt st 5).isEmpty with
        | true =>
          rw [make_tf_degraded_eq r pick st p htgt (Or.inr (List.isEmpty_iff.1 hd))]
          exact ⟨Or.inl rfl, fun hcon => absurd (show ("True" : String) = "False" from hcon) hTF⟩
        | false =>
          have heq := make_tf_false_eq r pick st p hT2 htgt he hd
          rw [heq]
          refine ⟨Or.inr rfl, fun _ => ?_⟩
          have hlen : 0 < (make_distractors B tgt st 5).length :=
            List.length_pos.2 (List.isEmpty_eq_false.1 hd)
          refine ⟨tgt,
            (make_distractors B tgt st 5).getD
              (pick % (make_distractors B tgt st 5).length) "",
            rfl, he, getD_mem_of_lt (Nat.mod_lt pick hlen), rfl, ?_⟩
          intro i hi hne hcon
          apply hne
          rw [replaceFirstCI, hi] at hcon
          exact splice_eq_self (congrArg String.data hcon)

/-- Claim C4, counterexample to the statement as written: with WordNet
returning the multi-word name "York Field" among the synonyms of "york"
(lemma names with underscores replaced by spaces are routinely multi-word),
the TF builder swaps "York Field" for itself: the item is tagged `"False"`
yet its `questionText` equals the original sentence. -/
def yorkLex : String → List String := fun w =>
  if w = "york" then ["York Field", "pitch", "arena", "stadium", "meadow"] else []

/-- Heuristic sentence backend with the `yorkLex` lexical network. -/
def B1 : Backend := ⟨none, some yorkLex⟩

theorem claim_C4_counterexample :
    (make_tf_from_sentence B1 0 0 "The great York Field hosted matches" emptyState
        half).correct_answer = "False" ∧
    (make_tf_from_sentence B1 0 0 "The great York Field hosted matches" emptyState
        half).question = "The great York Field hosted matches" := by
  constructor
  · decide
  · decide

/-- Witness for C4 at a concrete run of the false branch. -/
theorem claim_C4_witness :
    ((make_tf_from_sentence B1 0 0 "The great York Field hosted matches" emptyState
        half).correct_answer = "True" ∨
     (make_tf_from_sentence B1 0 0 "The great York Field hosted matches" emptyState
        half).correct_answer = "False") ∧
    (∃ tgt repl, tfSwapTarget B1 "The great York Field hosted matches" = some tgt ∧
      tgt ≠ "" ∧ repl ∈ make_distractors B1 tgt emptyState 5 ∧
      (make_tf_from_sentence B1 0 0 "The great York Field hosted matches" emptyState
        half).question = replaceFirstCI "The great York Field hosted matches" tgt repl ∧
      (∀ i, findSub (lowerL tgt) (lowerL "The great York Field hosted matches") = some i →
        repl.data ≠ (("The great York Field hosted matches" : String).data.drop i).take
          tgt.data.length →
        (make_tf_from_sentence B1 0 0 "The great York Field hosted matches" emptyState
          half).question ≠ "The great York Field hosted matches")) := by
  have h := claim_C4 B1 0 0 "The great York Field hosted matches" emptyState half
  exact ⟨h.1, h.2 (by decide)⟩

/-! ## Claim C7: the distractor synthesizer -/

theorem not_eq_true_bool {b : Bool} (h : (!b) = true) : b = false := by
  cases b
  · rfl
  · exact absurd h (by decide)

theorem wordnet_length_le (B : Backend) (w : String) (n : ℕ) :
    (wordnet_distractors B w n).length ≤ n := by
  unfold wordnet_distractors
  cases B.wn with
  | none => exact Nat.zero_le n
  | some f => exact List.length_take_le _ _

theorem wordnet_not_word {B : Backend} {w : String} {n : ℕ} {x : String}
    (hx : x ∈ wordnet_distractors B w n) : pyLower x ≠ pyLower w := by
  unfold wordnet_distractors at hx
  cases hwn : B.wn with
  | none => rw [hwn] at hx; simp at hx
  | some f =>
    rw [hwn] at hx
    have hx2 := mem_pyDedup.1 (List.mem_of_mem_take hx)
    exact of_decide_eq_true (List.mem_filter.1 hx2).2

theorem chunksLoop_mem (answer : String) (n : ℕ) :
    ∀ (cs choices : List String) (x : String), x ∈ chunksLoop answer n choices cs →
      x ∈ choices ∨ (pyIn (pyLower x) (pyLower answer) = false ∧ x ∈ cs) := by
  intro cs
  induction cs with
  | nil =>
    intro choices x hx
    exact Or.inl hx
  | cons c cs2 ih =>
    intro choices x hx
    rw [chunksLoop] at hx
    by_cases h1 : n ≤ choices.length
    · rw [if_pos h1] at hx
      exact Or.inl hx
    · rw [if_neg h1] at hx
      by_cases h2 : (!(pyIn (pyLower c) (pyLower answer)) && !(choices.contains c)) = true
      · rw [if_pos h2] at hx
        rcases ih (choices ++ [c]) x hx with hch | ⟨hc, hcs⟩
        · rcases List.mem_append.1 hch with h3 | h3
          · exact Or.inl h3
          · rcases List.mem_singleton.1 h3 with rfl
            have hp : pyIn (pyLower x) (pyLower answer) = false :=
              not_eq_true_bool (Bool.and_eq_true _ _ ▸ h2).1
            exact Or.inr ⟨hp, List.mem_cons_self _ _⟩
        · exact Or.inr ⟨hc, List.mem_cons_of_mem _ hcs⟩
      · rw [if_neg h2] at hx
        rcases ih choices x hx with hch | ⟨hc, hcs⟩
        · exact Or.inl hch
        · exact Or.inr ⟨hc, List.mem_cons_of_mem _ hcs⟩

theorem fallback_not_in_answer {answer : String} {ks cs : List String} {n : ℕ} {x : String}
    (hx : x ∈ fallback_distractors answer ks cs n) :
    pyIn (pyLower x) (pyLower answer) = false := by
  unfold fallback_distractors at hx
  have hx2 := List.mem_of_mem_take hx
  rcases chunksLoop_mem answer n cs _ x hx2 with hch | ⟨hc, _⟩
  · have hcand := List.mem_of_mem_take hch
    exact not_eq_true_bool (List.mem_filter.1 hcand).2
  · exact hc

theorem extrasLoop_mem (n : ℕ) :
    ∀ (es comb : List String) (x : String), x ∈ extrasLoop n comb es →
      x ∈ comb ∨ x ∈ es := by
  intro es
  induction es with
  | nil =>
    intro comb x hx
    exact Or.inl hx
  | cons e es2 ih =>
    intro comb x hx
    rw [extrasLoop] at hx
    by_cases h1 : n ≤ comb.length
    · rw [if_pos h1] at hx
      exact Or.inl hx
    · rw [if_neg h1] at hx
      rcases ih (comb ++ [e]) x hx with hch | hes
      · rcases List.mem_append.1 hch with h3 | h3
        · exact Or.inl h3
        · rcases List.mem_singleton.1 h3 with rfl
          exact Or.inr (List.mem_cons_self _ _)
      · exact Or.inr (List.mem_cons_of_mem _ hes)

theorem make_distractors_length_le (B : Backend) (a : String) (st : PState) (n : ℕ) :
    (make_distractors B a st n).length ≤ n := by
  unfold make_distractors
  dsimp only
  split
  · exact List.length_take_le _ _
  · exact List.length_take_le _ _

theorem make_distractors_wn_path (B : Backend) (a : String) (st : PState) (n : ℕ)
    (h : n ≤ (wordnet_distractors B (pyLower (ansToken a)) n).length) :
    make_distractors B a st n = wordnet_distractors B (pyLower (ansToken a)) n := by
  unfold make_distractors
  rw [if_pos h]
  exact List.take_of_length_le (wordnet_length_le B _ n)

theorem make_distractors_excludes (B : Backend) (a : String) (st : PState) (n : ℕ)
    (hne : a ≠ "") (hws : ∀ c ∈ a.data, c.isWhitespace = false) :
    a ∉ make_distractors B a st n := by
  have htok : ansToken a = a := by
    rw [ansToken, pyStrip_of_all_not_ws hws, pySplitWs_single hne hws]
    rfl
  have hcontra : ∀ m : ℕ, a ∉ wordnet_distractors B (pyLower a) m := by
    intro m hmem
    exact wordnet_not_word hmem (pyLower_pyLower a).symm
  have hself : pyIn (pyLower a) (pyLower a) = true := pyIn_self (pyLower a)
  have hcomb : a ∉ pyDedup (wordnet_distractors B (pyLower a) n ++
      fallback_distractors a st.keywords st.noun_chunks n) := by
    intro hc
    rcases List.mem_append.1 (mem_pyDedup.1 hc) with hw | hf
    · exact hcontra n hw
    · rw [fallback_not_in_answer hf] at hself
      exact Bool.false_ne_true hself
  intro hmem
  simp only [make_distractors, htok] at hmem
  by_cases hwn : n ≤ (wordnet_distractors B (pyLower a) n).length
  · rw [if_pos hwn] at hmem
    exact hcontra n (List.mem_of_mem_take hmem)
  · rw [if_neg hwn] at hmem
    have hmem2 := List.mem_of_mem_take hmem
    by_cases hlt : (pyDedup (wordnet_distractors B (pyLower a) n ++
        fallback_distractors a st.keywords st.noun_chunks n)).length < n
    · rw [if_pos hlt] at hmem2
      rcases extrasLoop_mem n _ _ a hmem2 with hc | hex
      · exact hcomb hc
      · have hp := (List.mem_filter.1 hex).2
        have hp2 : pyIn (pyLower a) (pyLower a) = false :=
          not_eq_true_bool (Bool.and_eq_true _ _ ▸ hp).2
        rw [hp2] at hself
        exact Bool.false_ne_true hself
    · rw [if_neg hlt] at hmem2
      exact hcomb hmem2

/-- Claim C7 (amended): `make_distractors` returns at most `count` strings;
when the lexical-network lookup on the first token of the answer yields
`count` or more candidates, exactly those candidates (truncated to `count`)
are returned, with no fallback keywords or noun chunks consulted; and the
answer itself never appears in the result whenever the answer is a single
whitespace-free token.  (A multi-word answer can appear: only candidates
case-insensitively equal to the answer's first token are excluded on the
lexical path — see the counterexample.) -/
theorem claim_C7 (B : Backend) (a : String) (st : PState) (n : ℕ) :
    (make_distractors B a st n).length ≤ n ∧
    (n ≤ (wordnet_distractors B (pyLower (ansToken a)) n).length →
      make_distractors B a st n = wordnet_distractors B (pyLower (ansToken a)) n) ∧
    (a ≠ "" → (∀ c ∈ a.data, c.isWhitespace = false) →
      a ∉ make_distractors B a st n) :=
  ⟨make_distractors_length_le B a st n,
   make_distractors_wn_path B a st n,
   make_distractors_excludes B a st n⟩

/-- A lexical network offering the multi-word name "hot dog" among the
candidates for "hot". -/
def hotLex : String → List String := fun w =>
  if w = "hot" then ["hot dog", "warm", "heated"] else []

/-- Heuristic backend with the `hotLex` lexical network. -/
def B2 : Backend := ⟨none, some hotLex⟩

/-- Claim C7, counterexample to the statement as written ("the answer itself
never appears"): for the two-word answer "hot dog" the lexical path looks up
"hot" and only excludes candidates equal to "hot", so the full answer comes
back as one of its own distractors. -/
theorem claim_C7_counterexample :
    "hot dog" ∈ make_distractors B2 "hot dog" emptyState 3 := by decide

/-- Witness for C7 exercising both inner implications at concrete inputs. -/
theorem claim_C7_witness :
    (make_distractors B2 "hot dog" emptyState 3).length ≤ 3 ∧
    make_distractors B2 "hot dog" emptyState 3 =
      wordnet_distractors B2 (pyLower (ansToken "hot dog")) 3 ∧
    "warm" ∉ make_distractors B2 "warm" emptyState 3 := by
  have h1 := claim_C7 B2 "hot dog" emptyState 3
  have h2 := claim_C7 B2 "warm" emptyState 3
  exact ⟨h1.1, h1.2.1 (by decide), h2.2.2 (by decide) (by decide)⟩

/-! ## Claim C10: MCQ items carry at most 4 options -/

theorem make_mcq_some_spec {B : Backend} {sh : List String → List String} {s : String}
    {st : PState} {nd : ℕ} {it : QItem}
    (h : make_mcq_from_sentence B sh s st nd = some it) :
    ∃ a0, select_answer_candidate B s = some a0 ∧ a0 ≠ "" ∧
      2 ≤ (mcqOptions B (pyStrip a0) st nd).length ∧
      it = { type := "mcq", question := replaceFirstCI s (pyStrip a0) "______",
             options := sh (mcqOptions B (pyStrip a0) st nd),
             answer := pyStrip a0, correct_answer := pyStrip a0, topic := topicOf st } := by
  unfold make_mcq_from_sentence at h
  cases hsel : select_answer_candidate B s with
  | none =>
    rw [hsel] at h
    exact Option.noConfusion h
  | some a0 =>
    rw [hsel] at h
    dsimp only at h
    by_cases h0 : a0 = ""
    · rw [if_pos h0] at h
      exact Option.noConfusion h
    · rw [if_neg h0] at h
      by_cases h1 : (((pySplitWs s).take 2).map pyLower).contains (pyLower (pyStrip a0)) = true
      · rw [if_pos h1] at h
        exact Option.noConfusion h
      · rw [if_neg h1] at h
        by_cases h2 : (mcqOptions B (pyStrip a0) st nd).length < 2
        · rw [if_pos h2] at h
          exact Option.noConfusion h
        · rw [if_neg h2] at h
          exact ⟨a0, rfl, h0, Nat.le_of_not_lt h2, (Option.some_injective _ h).symm⟩

theorem mcqOptions_length_le (B : Backend) (ans : String) (st : PState) (nd : ℕ) :
    (mcqOptions B ans st nd).length ≤ 1 + nd := by
  unfold mcqOptions
  refine le_trans (pyDedup_length_le _) ?_
  rw [List.length_map]
  refine le_trans (List.length_filter_le _ _) ?_
  rw [List.length_append, List.length_singleton]
  exact Nat.add_le_add_left (make_distractors_length_le B ans st nd) 1

theorem gatherCandidates_mem (B : Backend) (shOpts : ℕ → List String → List String)
    (coin tfr : ℕ → ℚ) (pick : ℕ → ℕ) (st : PState) :
    ∀ (sents : List String) (i : ℕ) (x : QItem),
      x ∈ gatherCandidates B shOpts coin tfr pick st i sents →
      (∃ j s, make_mcq_from_sentence B (shOpts j) s st 3 = some x) ∨
      (∃ j s, x = make_tf_from_sentence B (tfr j) (pick j) s st half) := by
  intro sents
  induction sents with
  | nil =>
    intro i x hx
    exact absurd hx (List.not_mem_nil x)
  | cons s rest ih =>
    intro i x hx
    rw [gatherCandidates] at hx
    rcases List.mem_append.1 hx with hx1 | hrest
    · rcases List.mem_append.1 hx1 with hmcq | htf
      · left
        refine ⟨i, s, ?_⟩
        rcases hcase : make_mcq_from_sentence B (shOpts i) s st 3 with _ | q
        · rw [hcase] at hmcq
          exact absurd hmcq (List.not_mem_nil x)
        · rw [hcase] at hmcq
          rcases List.mem_singleton.1 hmcq with rfl
          rfl
      · right
        refine ⟨i, s, ?_⟩
        by_cases hcoin : coin i < half
        · rw [if_pos hcoin] at htf
          exact List.mem_singleton.1 htf
        · rw [if_neg hcoin] at htf
          exact absurd htf (List.not_mem_nil x)
    · exact ih (i + 1) x hrest

/-- Claim C10 (confirmed): every MultipleChoice item produced by the pipeline
has at most 4 options — the assembler invokes the MCQ builder with its default
of 3 distractors, and the builder only deduplicates the answer plus those
distractors, so no constructed MCQ item ever carries 5 or 6 options. -/
theorem claim_C10 (B : Backend) (shOpts : ℕ → List String → List String)
    (shItems : List QItem → List QItem) (coin tfr : ℕ → ℚ) (pick : ℕ → ℕ)
    (text : Option String) (nq : ℤ)
    (hOpts : ∀ i l, (shOpts i l).Perm l) (hItems : ∀ l, (shItems l).Perm l)
    (q : QItem) (hq : q ∈ create_quiz_from_text B shOpts shItems coin tfr pick text nq)
    (hty : q.type = "mcq") : q.options.length ≤ 4 := by
  simp only [create_quiz_from_text] at hq
  rcases assembleLoop_mem nq _ [] [] q hq with habs | hpool
  · exact absurd habs (List.not_mem_nil q)
  · have hc := (hItems _).mem_iff.1 hpool
    rcases gatherCandidates_mem B shOpts coin tfr pick (preprocess B text) _ 0 q hc with
      ⟨j, s, hmcq⟩ | ⟨j, s, htf⟩
    · rcases make_mcq_some_spec hmcq with ⟨a0, _, _, _, heq⟩
      rw [heq]
      have hlen := (hOpts j (mcqOptions B (pyStrip a0) (preprocess B text) 3)).length_eq
      calc (shOpts j (mcqOptions B (pyStrip a0) (preprocess B text) 3)).length
          = (mcqOptions B (pyStrip a0) (preprocess B text) 3).length := hlen
        _ ≤ 1 + 3 := mcqOptions_length_le B (pyStrip a0) (preprocess B text) 3
    · rw [htf] at hty
      rw [make_tf_type B (tfr j) (pick j) s (preprocess B text) half] at hty
      exact absurd hty (by decide)

/-- The MCQ item produced by the concrete heuristic run used as witness. -/
def qitemParis : QItem :=
  { type := "mcq", question := "The city of ______ controls beautiful gardens.",
    options := ["Paris", "city", "controls", "beautiful"], answer := "Paris",
    correct_answer := "Paris", topic := "city" }

/-- Witness for C10: a full concrete pipeline run producing an MCQ item. -/
theorem claim_C10_witness : qitemParis.options.length ≤ 4 :=
  claim_C10 B0 idShuffleS idShuffleI coinOne coinZero pickZero
    (some "The city of Paris controls beautiful gardens.") 3
    (fun i l => List.Perm.refl l) (fun l => List.Perm.refl l) qitemParis
    (by decide) (by decide)

/-! ## Claim C2: MCQ option invariants -/

theorem mem_dropWhile_of_not {l : List Char} {c : Char} {p : Char → Bool}
    (h : c ∈ l) (hp : p c = false) : c ∈ l.dropWhile p := by
  induction l with
  | nil => exact absurd h (List.not_mem_nil c)
  | cons a t ih =>
    rw [List.dropWhile_cons]
    by_cases ha : p a = true
    · rw [if_pos ha]
      rcases List.mem_cons.1 h with rfl | hm
      · rw [hp] at ha
        exact absurd ha (by decide)
      · exact ih hm
    · rw [if_neg ha]
      exact h

theorem stripL_ne_nil {l : List Char} {c : Char} (h : c ∈ l)
    (hw : c.isWhitespace = false) : stripL l ≠ [] := by
  intro hcon
  unfold stripL at hcon
  rw [List.reverse_eq_nil_iff, List.dropWhile_eq_nil_iff] at hcon
  have h1 : c ∈ l.dropWhile Char.isWhitespace := mem_dropWhile_of_not h hw
  have h2 : c ∈ (l.dropWhile Char.isWhitespace).reverse := List.mem_reverse.2 h1
  rw [hcon c h2] at hw
  exact absurd hw (by decide)

theorem pyStrip_ne_empty {s : String} {c : Char} (h : c ∈ s.data)
    (hw : c.isWhitespace = false) : pyStrip s ≠ "" := by
  intro hcon
  exact stripL_ne_nil h hw (congrArg String.data hcon)

theorem upper_not_ws {c : Char} (h : c.isUpper = true) : c.isWhitespace = false :=
  alpha_not_ws (by simp [Char.isAlpha, h])

theorem capsWordFrom_shape {l w r : List Char} (h : capsWordFrom l = some (w, r)) :
    ∃ c t, w = c :: t ∧ c.isUpper = true := by
  cases l with
  | nil => exact Option.noConfusion h
  | cons c rest =>
    rw [capsWordFrom] at h
    by_cases hu : c.isUpper = true
    · rw [if_pos hu] at h
      dsimp only at h
      by_cases h3 : 3 ≤ (rest.takeWhile Char.isLower).length
      · rw [if_pos h3] at h
        have := (Prod.mk.injEq _ _ _ _ ▸ Option.some_injective _ h).1
        exact ⟨c, rest.takeWhile Char.isLower, this.symm, hu⟩
      · rw [if_neg h3] at h
        exact Option.noConfusion h
    · rw [if_neg hu] at h
      exact Option.noConfusion h

theorem capsExtendGo_shape : ∀ (fuel : ℕ) (acc l : List Char),
    ∃ t, capsExtendGo fuel acc l = acc ++ t := by
  intro fuel
  induction fuel with
  | zero => intro acc l; exact ⟨[], by simp [capsExtendGo]⟩
  | succ fuel ih =>
    intro acc l
    rw [capsExtendGo]
    by_cases hws : (l.takeWhile Char.isWhitespace).isEmpty = true
    · rw [if_pos hws]
      exact ⟨[], by simp⟩
    · rw [if_neg hws]
      cases hcw : capsWordFrom (l.dropWhile Char.isWhitespace) with
      | none => exact ⟨[], by simp⟩
      | some pr =>
        obtain ⟨w, rest2⟩ := pr
        rcases ih (acc ++ l.takeWhile Char.isWhitespace ++ w) rest2 with ⟨t2, ht2⟩
        refine ⟨l.takeWhile Char.isWhitespace ++ w ++ t2, ?_⟩
        show capsExtendGo fuel (acc ++ l.takeWhile Char.isWhitespace ++ w) rest2 = _
        rw [ht2]
        simp [List.append_assoc]

theorem firstCapsGo_shape : ∀ (b : Bool) (l : List Char) (str : String),
    firstCapsGo b l = some str → ∃ c t, str.data = c :: t ∧ c.isUpper = true := by
  intro b l
  induction l generalizing b with
  | nil => intro str h; exact Option.noConfusion h
  | cons c rest ih =>
    intro str h
    rw [firstCapsGo] at h
    by_cases hcond : (!b && c.isUpper) = true
    · rw [if_pos hcond] at h
      cases hcw : capsWordFrom (c :: rest) with
      | none =>
        rw [hcw] at h
        exact ih true str h
      | some pr =>
        obtain ⟨w, rest2⟩ := pr
        rw [hcw] at h
        dsimp only at h
        rcases capsWordFrom_shape hcw with ⟨d, t, hw, hu⟩
        rcases capsExtendGo_shape (rest2.length + 1) w rest2 with ⟨t2, ht2⟩
        have hstr := (Option.some_injective _ h).symm
        refine ⟨d, t ++ t2, ?_, hu⟩
        rw [hstr]
        show (capsExtendGo (rest2.length + 1) w rest2) = d :: (t ++ t2)
        rw [ht2, hw]
        simp
    · rw [if_neg hcond] at h
      exact ih _ str h

theorem firstLongGo_shape : ∀ (b : Bool) (l : List Char) (str : String),
    firstLongGo b l = some str → ∃ c t, str.data = c :: t ∧ c.isAlpha = true := by
  intro b l
  induction l generalizing b with
  | nil => intro str h; exact Option.noConfusion h
  | cons c rest ih =>
    intro str h
    rw [firstLongGo] at h
    by_cases hcond : (!b && c.isAlpha) = true
    · rw [if_pos hcond] at h
      dsimp only at h
      by_cases h4 : (4 ≤ (c :: rest.takeWhile Char.isAlpha).length &&
          boundaryOk (rest.dropWhile Char.isAlpha).head?) = true
      · rw [if_pos h4] at h
        have hstr := (Option.some_injective _ h).symm
        refine ⟨c, rest.takeWhile Char.isAlpha, ?_, (Bool.and_eq_true _ _ ▸ hcond).2⟩
        rw [hstr]
      · rw [if_neg h4] at h
        exact ih true str h
    · rw [if_neg hcond] at h
      exact ih _ str h

theorem insertLen_perm (x : String) : ∀ l : List String, (insertLen x l).Perm (x :: l) := by
  intro l
  induction l with
  | nil => simp [insertLen]
  | cons y ys ih =>
    rw [insertLen]
    by_cases h : pyLen y < pyLen x
    · rw [if_pos h]
    · rw [if_neg h]
      exact (ih.cons y).trans (List.Perm.swap x y ys)

theorem sortFold_perm : ∀ (l acc : List String),
    (l.foldl (fun acc x => insertLen x acc) acc).Perm (acc ++ l) := by
  intro l
  induction l with
  | nil => intro acc; simp
  | cons x t ih =>
    intro acc
    rw [List.foldl_cons]
    refine (ih (insertLen x acc)).trans ?_
    refine ((insertLen_perm x acc).append_right t).trans ?_
    simpa using List.perm_middle.symm

theorem sortByLenDesc_perm (l : List String) : (sortByLenDesc l).Perm l := by
  have h := sortFold_perm l []
  simpa [sortByLenDesc] using h

/-- If every span the backend hands to the MCQ selector has a non-whitespace
character, the selected answer candidate does not strip to the empty string
(in heuristic mode this holds unconditionally: the regex matches start with a
letter). -/
theorem select_strip_ne {B : Backend} {s : String} {a0 : String}
    (hnlp : ∀ o, B.nlp = some o → (∀ e ∈ o.ents s, pyStrip e ≠ "") ∧
      (∀ c ∈ o.docChunks s, pyStrip c ≠ "") ∧ (∀ t ∈ o.nounToks s, pyStrip t ≠ ""))
    (hsel : select_answer_candidate B s = some a0) : pyStrip a0 ≠ "" := by
  unfold select_answer_candidate at hsel
  cases hb : B.nlp with
  | none =>
    rw [hb] at hsel
    dsimp only at hsel
    cases hcap : firstCapsRun s with
    | some cap =>
      rw [hcap] at hsel
      have ha0 : a0 = pyStrip cap := (Option.some_injective _ hsel).symm
      rcases firstCapsGo_shape false s.data cap hcap with ⟨c, t, hdata, hu⟩
      have hcs : pyStrip cap ≠ "" := by
        refine pyStrip_ne_empty (c := c) ?_ (upper_not_ws hu)
        rw [hdata]
        exact List.mem_cons_self c t
      rw [ha0, pyStrip_pyStrip]
      exact hcs
    | none =>
      rw [hcap] at hsel
      rcases firstLongGo_shape false s.data a0 hsel with ⟨c, t, hdata, halpha⟩
      refine pyStrip_ne_empty (c := c) ?_ (alpha_not_ws halpha)
      rw [hdata]
      exact List.mem_cons_self c t
  | some o =>
    rw [hb] at hsel
    dsimp only at hsel
    rcases hnlp o hb with ⟨hents, hchunks, htoks⟩
    cases hes : o.ents s with
    | cons e es =>
      rw [hes] at hsel
      have ha0 : a0 = pyStrip e := (Option.some_injective _ hsel).symm
      rw [ha0, pyStrip_pyStrip]
      exact hents e (by rw [hes]; exact List.mem_cons_self e es)
    | nil =>
      rw [hes] at hsel
      cases hso : sortByLenDesc ((o.docChunks s).map pyStrip) with
      | cons ch chs =>
        rw [hso] at hsel
        have ha0 : a0 = ch := (Option.some_injective _ hsel).symm
        have hch : ch ∈ (o.docChunks s).map pyStrip := by
          have hperm := sortByLenDesc_perm ((o.docChunks s).map pyStrip)
          rw [hso] at hperm
          exact hperm.mem_iff.1 (List.mem_cons_self ch chs)
        rcases List.mem_map.1 hch with ⟨c0, hc0, hc0eq⟩
        rw [ha0, ← hc0eq, pyStrip_pyStrip]
        exact hchunks c0 hc0
      | nil =>
        rw [hso] at hsel
        cases hts : o.nounToks s with
        | cons t0 ts =>
          rw [hts] at hsel
          have ha0 : a0 = t0 := (Option.some_injective _ hsel).symm
          rw [ha0]
          exact htoks t0 (by rw [hts]; exact List.mem_cons_self t0 ts)
        | nil =>
          rw [hts] at hsel
          exact Option.noConfusion hsel

/-- Every distractor comes from the lexical network, the state's keywords, or
the state's noun chunks. -/
theorem make_distractors_mem_src {B : Backend} {a : String} {st : PState} {n : ℕ} {x : String}
    (hx : x ∈ make_distractors B a st n) :
    (∃ f, B.wn = some f ∧ x ∈ f (pyLower (ansToken a))) ∨
      x ∈ st.keywords ∨ x ∈ st.noun_chunks := by
  have hwnsrc : ∀ (y : String), y ∈ wordnet_distractors B (pyLower (ansToken a)) n →
      ∃ f, B.wn = some f ∧ y ∈ f (pyLower (ansToken a)) := by
    intro y hy
    unfold wordnet_distractors at hy
    cases hwn : B.wn with
    | none => rw [hwn] at hy; simp at hy
    | some f =>
      rw [hwn] at hy
      exact ⟨f, rfl, (List.mem_filter.1 (mem_pyDedup.1 (List.mem_of_mem_take hy))).1⟩
  have hfbsrc : ∀ (y : String), y ∈ fallback_distractors a st.keywords st.noun_chunks n →
      y ∈ st.keywords ∨ y ∈ st.noun_chunks := by
    intro y hy
    unfold fallback_distractors at hy
    rcases chunksLoop_mem a n st.noun_chunks _ y (List.mem_of_mem_take hy) with hch | ⟨_, hcs⟩
    · exact Or.inl (List.mem_filter.1 (List.mem_of_mem_take hch)).1
    · exact Or.inr hcs
  have hcombsrc : ∀ (y : String), y ∈ pyDedup (wordnet_distractors B (pyLower (ansToken a)) n ++
      fallback_distractors a st.keywords st.noun_chunks n) →
      (∃ f, B.wn = some f ∧ y ∈ f (pyLower (ansToken a))) ∨
        y ∈ st.keywords ∨ y ∈ st.noun_chunks := by
    intro y hy
    rcases List.mem_append.1 (mem_pyDedup.1 hy) with hw | hf
    · exact Or.inl (hwnsrc y hw)
    · exact Or.inr (hfbsrc y hf)
  simp only [make_distractors] at hx
  by_cases hwn : n ≤ (wordnet_distractors B (pyLower (ansToken a)) n).length
  · rw [if_pos hwn] at hx
    exact Or.inl (hwnsrc x (List.mem_of_mem_take hx))
  · rw [if_neg hwn] at hx
    have hx2 := List.mem_of_mem_take hx
    by_cases hlt : (pyDedup (wordnet_distractors B (pyLower (ansToken a)) n ++
        fallback_distractors a st.keywords st.noun_chunks n)).length < n
    · rw [if_pos hlt] at hx2
      rcases extrasLoop_mem n _ _ x hx2 with hc | hex
      · exact hcombsrc x hc
      · exact Or.inr (Or.inl (List.mem_filter.1 hex).1)
    · rw [if_neg hlt] at hx2
      exact hcombsrc x hx2

/-- Claim C2 (amended): for every MCQ item, `correctAnswer` is present in
`options`, `2 ≤ len(options) ≤ 6` (indeed at most 4 with the default 3
distractors), and all entries are pairwise distinct; every entry is non-empty
provided every string the state and the backends supply (keywords, noun
chunks, lexical-network candidates, entity/chunk/noun spans) contains a
non-whitespace character.  Without that proviso a whitespace-only keyword
yields an empty option: the builder filters out falsy strings before
stripping, not after — see the counterexample. -/
theorem claim_C2 (B : Backend) (sh : List String → List String) (s : String) (st : PState)
    (it : QItem) (hsh : ∀ l, (sh l).Perm l)
    (hkw : ∀ k ∈ st.keywords, pyStrip k ≠ "")
    (hnc : ∀ c ∈ st.noun_chunks, pyStrip c ≠ "")
    (hwn : ∀ f, B.wn = some f → ∀ w x, x ∈ f w → pyStrip x ≠ "")
    (hnlp : ∀ o, B.nlp = some o → (∀ e ∈ o.ents s, pyStrip e ≠ "") ∧
      (∀ c ∈ o.docChunks s, pyStrip c ≠ "") ∧ (∀ t ∈ o.nounToks s, pyStrip t ≠ ""))
    (h : make_mcq_from_sentence B sh s st 3 = some it) :
    it.correct_answer ∈ it.options ∧ 2 ≤ it.options.length ∧ it.options.length ≤ 6 ∧
    it.options.Nodup ∧ (∀ o ∈ it.options, o ≠ "") := by
  rcases make_mcq_some_spec h with ⟨a0, hsel, h0, hlen2, heq⟩
  have hans : pyStrip a0 ≠ "" := select_strip_ne hnlp hsel
  have hperm := hsh (mcqOptions B (pyStrip a0) st 3)
  have hmemopt : ∀ o2, o2 ∈ it.options →
      ∃ y, (y = pyStrip a0 ∨ y ∈ make_distractors B (pyStrip a0) st 3) ∧
        y ≠ "" ∧ o2 = pyStrip y := by
    intro o2 ho2
    rw [heq] at ho2
    have ho3 : o2 ∈ mcqOptions B (pyStrip a0) st 3 := hperm.mem_iff.1 ho2
    unfold mcqOptions at ho3
    rcases List.mem_map.1 (mem_pyDedup.1 ho3) with ⟨y, hy, hyeq⟩
    have hy2 := List.mem_filter.1 hy
    refine ⟨y, ?_, of_decide_eq_true hy2.2, hyeq.symm⟩
    rcases List.mem_append.1 hy2.1 with h1 | h1
    · exact Or.inl (List.mem_singleton.1 h1)
    · exact Or.inr h1
  refine ⟨?_, ?_, ?_, ?_, ?_⟩
  · rw [heq]
    show pyStrip a0 ∈ sh (mcqOptions B (pyStrip a0) st 3)
    apply hperm.mem_iff.2
    unfold mcqOptions
    refine mem_pyDedup.2 (List.mem_map.2 ⟨pyStrip a0, ?_, pyStrip_pyStrip a0⟩)
    refine List.mem_filter.2 ⟨List.mem_append.2 (Or.inl (List.mem_singleton.2 rfl)), ?_⟩
    exact decide_eq_true hans
  · rw [heq]
    show 2 ≤ (sh (mcqOptions B (pyStrip a0) st 3)).length
    rw [hperm.length_eq]
    exact hlen2
  · rw [heq]
    show (sh (mcqOptions B (pyStrip a0) st 3)).length ≤ 6
    rw [hperm.length_eq]
    exact le_trans (mcqOptions_length_le B (pyStrip a0) st 3) (by omega)
  · rw [heq]
    show (sh (mcqOptions B (pyStrip a0) st 3)).Nodup
    exact hperm.nodup_iff.2 (pyDedup_nodup _)
  · intro o2 ho2
    rcases hmemopt o2 ho2 with ⟨y, hysrc, hyne, ho2eq⟩
    rcases hysrc with rfl | hyd
    · rw [ho2eq, pyStrip_pyStrip]
      exact hans
    · rw [ho2eq]
      rcases make_distractors_mem_src hyd with ⟨f, hf, hyf⟩ | hyk | hych
      · exact hwn f hf _ y hyf
      · exact hkw y hyk
      · exact hnc y hych

/-- A state whose keyword list holds a whitespace-only string — a legal
`PreprocessedState` value per the spec's data model. -/
def stSpace : PState := ⟨[], [], [" "]⟩

/-- Claim C2, counterexample to the statement as written: with the state
keyword `" "` the builder keeps the truthy string `" "`, strips it to `""`
after the falsy-filter, and emits an MCQ whose options contain the empty
string. -/
theorem claim_C2_counterexample :
    (make_mcq_from_sentence B0 (idShuffleS 0) "The city of Paris governs" stSpace 3).any
      (fun q => q.options.contains "") = true := by decide

/-- Witness for C2 on a state produced by `preprocess` itself. -/
theorem claim_C2_witness :
    qitemParis.correct_answer ∈ qitemParis.options ∧ 2 ≤ qitemParis.options.length ∧
    qitemParis.options.length ≤ 6 ∧ qitemParis.options.Nodup ∧
    (∀ o ∈ qitemParis.options, o ≠ "") :=
  claim_C2 B0 (idShuffleS 0) "The city of Paris controls beautiful gardens."
    (preprocess B0 (some "The city of Paris controls beautiful gardens.")) qitemParis
    (fun l => List.Perm.refl l)
    (by decide) (by decide)
    (fun f hf => Option.noConfusion hf) (fun o ho => Option.noConfusion ho)
    (by decide)

/-! ## Claim C8: shape of the heuristic keywords -/

theorem mem_of_getLast? {l : List ℕ} {a : ℕ} (h : l.getLast? = some a) : a ∈ l := by
  cases hl : l with
  | nil => rw [hl] at h; exact Option.noConfusion h
  | cons x t =>
    rw [hl] at h
    rw [List.getLast?_eq_getLast (x :: t) (by simp)] at h
    rw [← Option.some_injective _ h]
    exact List.getLast_mem _

theorem tokenEnd_bounds {run : List Char} {nxt : Option Char} {e : ℕ}
    (h : tokenEnd run nxt = some e) : 2 ≤ e ∧ e ≤ run.length := by
  have hmem := mem_of_getLast? h
  have hv : validEnd run nxt e = true := (List.mem_filter.1 hmem).2
  unfold validEnd at hv
  simp only [Bool.and_eq_true, decide_eq_true_eq] at hv
  exact ⟨hv.1.1, hv.1.2⟩

theorem findWordsGo_shape : ∀ (fuel : ℕ) (b : Bool) (l : List Char) (w : String),
    w ∈ findWordsGo fuel b l →
    w.data ≠ [] ∧ (∀ c ∈ w.data, isWordElem c = true) ∧ w.data <:+: l := by
  intro fuel
  induction fuel with
  | zero =>
    intro b l w hw
    exact absurd hw (List.not_mem_nil w)
  | succ fuel ih =>
    intro b l w hw
    cases l with
    | nil => exact absurd hw (List.not_mem_nil w)
    | cons c rest =>
      rw [findWordsGo] at hw
      by_cases hcond : (c.isAlpha && !b) = true
      · rw [if_pos hcond] at hw
        dsimp only at hw
        have hrun : (c :: rest.takeWhile isWordElem) ++ rest.dropWhile isWordElem =
            c :: rest := by
          rw [List.cons_append, List.takeWhile_append_dropWhile]
        cases htok : tokenEnd (c :: rest.takeWhile isWordElem)
            (rest.dropWhile isWordElem).head? with
        | none =>
          rw [htok] at hw
          rcases ih true rest w hw with ⟨hne, hel, hinf⟩
          exact ⟨hne, hel, hinf.trans (List.IsSuffix.isInfix ⟨[c], rfl⟩)⟩
        | some e =>
          rw [htok] at hw
          rcases tokenEnd_bounds htok with ⟨he2, hel2⟩
          rcases List.mem_cons.1 hw with rfl | hrec
          · refine ⟨?_, ?_, ?_⟩
            · show (c :: rest.takeWhile isWordElem).take e ≠ []
              intro hnil
              have := congrArg List.length hnil
              rw [List.length_take] at this
              simp only [List.length_nil] at this
              omega
            · intro d hd
              have hd2 := List.mem_of_mem_take hd
              rcases List.mem_cons.1 hd2 with rfl | hd3
              · simp [isWordElem, (Bool.and_eq_true _ _ ▸ hcond).1]
              · exact List.mem_takeWhile_imp hd3
            · show (c :: rest.takeWhile isWordElem).take e <:+: c :: rest
              refine List.IsPrefix.isInfix ?_
              refine (List.take_prefix e _).trans ?_
              rw [← hrun]
              exact ⟨rest.dropWhile isWordElem, rfl⟩
          · rcases ih _ _ w hrec with ⟨hne, hel, hinf⟩
            refine ⟨hne, hel, hinf.trans (List.IsSuffix.isInfix ?_)⟩
            have hd : (c :: rest.takeWhile isWordElem).drop e ++ rest.dropWhile isWordElem =
                (c :: rest).drop e := by
              rw [← hrun, List.drop_append_eq_append_drop, Nat.sub_eq_zero_of_le hel2,
                List.drop_zero]
            rw [hd]
            exact List.drop_suffix e (c :: rest)
      · rw [if_neg hcond] at hw
        rcases ih _ rest w hw with ⟨hne, hel, hinf⟩
        exact ⟨hne, hel, hinf.trans (List.IsSuffix.isInfix ⟨[c], rfl⟩)⟩

theorem findWords_shape {s : String} {w : String} (hw : w ∈ findWords s) :
    w.data ≠ [] ∧ (∀ c ∈ w.data, isWordElem c = true) ∧ w.data <:+: s.data :=
  findWordsGo_shape (s.data.length + 1) false s.data w hw

theorem insertRanked_perm (toks : List String) (x : String) :
    ∀ l : List String, (insertRanked toks x l).Perm (x :: l) := by
  intro l
  induction l with
  | nil => simp [insertRanked]
  | cons y ys ih =>
    rw [insertRanked]
    by_cases h : toks.count y < toks.count x
    · rw [if_pos h]
    · rw [if_neg h]
      exact (ih.cons y).trans (List.Perm.swap x y ys)

theorem rankFold_perm (toks : List String) : ∀ (l acc : List String),
    (l.foldl (fun acc x => insertRanked toks x acc) acc).Perm (acc ++ l) := by
  intro l
  induction l with
  | nil => intro acc; simp
  | cons x t ih =>
    intro acc
    rw [List.foldl_cons]
    refine (ih (insertRanked toks x acc)).trans ?_
    refine ((insertRanked_perm toks x acc).append_right t).trans ?_
    simpa using List.perm_middle.symm

theorem rankSort_perm (toks l : List String) : (rankSort toks l).Perm l := by
  have h := rankFold_perm toks l []
  simpa [rankSort] using h

theorem insertRanked_sorted (toks : List String) (x : String) :
    ∀ l : List String, List.Sorted (fun a b => toks.count b ≤ toks.count a) l →
      List.Sorted (fun a b => toks.count b ≤ toks.count a) (insertRanked toks x l) := by
  intro l
  induction l with
  | nil => intro _; simp [insertRanked]
  | cons y ys ih =>
    intro hs
    rw [List.sorted_cons] at hs
    rw [insertRanked]
    by_cases h : toks.count y < toks.count x
    · rw [if_pos h]
      rw [List.sorted_cons]
      constructor
      · intro b hb
        rcases List.mem_cons.1 hb with rfl | hb2
        · exact le_of_lt h
        · exact le_trans (hs.1 b hb2) (le_of_lt h)
      · rw [List.sorted_cons]
        exact hs
    · rw [if_neg h]
      rw [List.sorted_cons]
      constructor
      · intro b hb
        have hb2 := (insertRanked_perm toks x ys).mem_iff.1 hb
        rcases List.mem_cons.1 hb2 with rfl | hb3
        · exact Nat.le_of_not_lt h
        · exact hs.1 b hb3
      · exact ih hs.2

theorem rankSort_sorted (toks l : List String) :
    List.Sorted (fun a b => toks.count b ≤ toks.count a) (rankSort toks l) := by
  rw [rankSort]
  have hgen : ∀ (l2 acc : List String),
      List.Sorted (fun a b => toks.count b ≤ toks.count a) acc →
      List.Sorted (fun a b => toks.count b ≤ toks.count a)
        (l2.foldl (fun acc x => insertRanked toks x acc) acc) := by
    intro l2
    induction l2 with
    | nil => intro acc h; exact h
    | cons x t ih =>
      intro acc h
      rw [List.foldl_cons]
      exact ih _ (insertRanked_sorted toks x acc h)
  exact hgen l [] (by simp)

/-- Claim C8 (amended): in heuristic mode every keyword is the lowercase form
of a token of the input text matched by the word pattern — consisting of ASCII
letters and hyphens (not purely alphabetic: hyphens occur), of length greater
than 3, containing no uppercase letters, drawn from the text as a contiguous
substring; the list is deduplicated, ranked by descending raw frequency, and
holds at most 50 entries. -/
theorem claim_C8 (wn : Option (String → List String)) (s : String) :
    (preprocess ⟨none, wn⟩ (some s)).keywords.length ≤ 50 ∧
    (preprocess ⟨none, wn⟩ (some s)).keywords.Nodup ∧
    List.Sorted (fun a b => (heurToks s).count b ≤ (heurToks s).count a)
      (preprocess ⟨none, wn⟩ (some s)).keywords ∧
    (∀ x ∈ (preprocess ⟨none, wn⟩ (some s)).keywords,
      ∃ w, w ∈ findWords s ∧ 3 < pyLen w ∧ x = pyLower w ∧ 3 < pyLen x ∧
        (∀ c ∈ x.data, c.isAlpha = true ∨ c = '-') ∧ (∀ c ∈ x.data, c.isUpper = false) ∧
        w.data <:+: s.data) := by
  by_cases hs : s = ""
  · subst hs
    refine ⟨by simp [preprocess, emptyState], by simp [preprocess, emptyState],
      by simp [preprocess, emptyState], ?_⟩
    intro x hx
    simp [preprocess, emptyState] at hx
  · have hkw : (preprocess ⟨none, wn⟩ (some s)).keywords = mostCommon (heurToks s) 50 := by
      simp [preprocess, hs]
    rw [hkw]
    have hsub : (mostCommon (heurToks s) 50).Sublist (rankSort (heurToks s)
        (pyDedup (heurToks s))) := by
      rw [mostCommon]
      exact List.take_sublist 50 _
    refine ⟨List.length_take_le 50 _, ?_, ?_, ?_⟩
    · refine List.Nodup.sublist hsub ?_
      exact ((rankSort_perm (heurToks s) (pyDedup (heurToks s))).nodup_iff).2
        (pyDedup_nodup _)
    · exact List.Pairwise.sublist hsub (rankSort_sorted (heurToks s) (pyDedup (heurToks s)))
    · intro x hx
      have hx2 : x ∈ rankSort (heurToks s) (pyDedup (heurToks s)) := hsub.mem hx
      have hx3 : x ∈ heurToks s :=
        mem_pyDedup.1 ((rankSort_perm (heurToks s) (pyDedup (heurToks s))).mem_iff.1 hx2)
      unfold heurToks at hx3
      rcases List.mem_map.1 hx3 with ⟨w, hwmem, hweq⟩
      have hwfilter := List.mem_filter.1 hwmem
      rcases findWords_shape hwfilter.1 with ⟨hne, hel, hinf⟩
      have hlen : 3 < pyLen w := of_decide_eq_true hwfilter.2
      refine ⟨w, hwfilter.1, hlen, hweq.symm, ?_, ?_, ?_, hinf⟩
      · rw [← hweq]
        show 3 < (pyLower w).data.length
        rw [pyLower, List.length_map]
        exact hlen
      · intro c hc
        rw [← hweq] at hc
        rcases List.mem_map.1 hc with ⟨d, hd, hdc⟩
        have hdel2 : d.isAlpha = true ∨ d = '-' := by simpa [isWordElem] using hel d hd
        rcases hdel2 with hda | hd2
        · left
          rw [← hdc]
          exact isAlpha_toLower hda
        · right
          rw [← hdc, hd2]
          decide
      · intro c hc
        rw [← hweq] at hc
        rcases List.mem_map.1 hc with ⟨d, _, hdc⟩
        rw [← hdc]
        exact isUpper_toLower d

/-- The text whose most frequent long token carries a hyphen. -/
def hyphText : String := "well-known well-known well-known facts appear"

/-- Claim C8, counterexample to the statement as written ("every entry is a
lowercase alphabetic token"): the keyword regex class is `[A-Za-z\-]`, so the
top keyword of `hyphText` is "well-known", which is not alphabetic. -/
theorem claim_C8_counterexample :
    "well-known" ∈ (preprocess B0 (some hyphText)).keywords ∧
    ("well-known".data.all Char.isAlpha) = false := by
  constructor
  · decide
  · decide

/-- Witness for C8 at a concrete text. -/
theorem claim_C8_witness :
    (preprocess ⟨none, none⟩ (some hyphText)).keywords.length ≤ 50 ∧
    (∃ w, w ∈ findWords hyphText ∧ 3 < pyLen w ∧ "facts" = pyLower w ∧ 3 < pyLen "facts" ∧
      (∀ c ∈ "facts".data, c.isAlpha = true ∨ c = '-') ∧
      (∀ c ∈ "facts".data, c.isUpper = false) ∧ w.data <:+: hyphText.data) :=
  ⟨(claim_C8 none hyphText).1, (claim_C8 none hyphText).2.2.2 "facts" (by decide)⟩
